import Mathlib

set_option maxHeartbeats 1000000
set_option maxRecDepth 10000

/-
Verification of the straight-line trajectory engine of sage-flatsurf
(flatsurf/geometry/straight_line_trajectory.py) over a shallow embedding.

The file embeds, from the source:
  - get_linearity_coeff                     (lines 12-50)
  - SegmentInPolygon and its operations     (lines 52-165)
  - AbstractStraightLineTrajectory.coding   (lines 213-304)
  - StraightLineTrajectory                  (lines 306-450), namespace SLT
  - StraightLineTrajectoryTranslation       (lines 464-647), namespace SLTT

The external collaborators (the tangent bundle with
forward_to_polygon_boundary / invert / position classification, and the
polygon's interval exchange transform flow_map) are not part of the
repository sources provided; they are modelled from the specification, and
instantiated concretely for the square torus (the unit square with
opposite edges glued), which is the surface used by the source's own
doctests.
-/

/-- Position classification of a tangent vector's base point as supplied by
the external tangent-bundle collaborator: interior point of the polygon,
interior of edge `e`, or vertex `k`. -/
inductive PtPos where
  | interior : PtPos
  | edgeInt : ℕ → PtPos
  | vtx : ℕ → PtPos
deriving DecidableEq

/-- Modelled from the spec: a tangent vector is a base polygon label, a base
point and a direction vector, with 2D exact (rational) coordinates. -/
structure TV where
  label : ℕ
  pt : ℚ × ℚ
  dir : ℚ × ℚ
deriving DecidableEq

/-- Modelled from the spec: two tangent vectors differ by (positive) scaling
when they have the same label, the same base point, and positively parallel
direction vectors (zero cross product and positive dot product). -/
def differs_by_scaling (u v : TV) : Bool :=
  decide (u.label = v.label ∧ u.pt = v.pt ∧
    u.dir.1 * v.dir.2 - u.dir.2 * v.dir.1 = 0 ∧
    0 < u.dir.1 * v.dir.1 + u.dir.2 * v.dir.2)

/-- The two failure modes of `get_linearity_coeff`: the ValueError with
message non colinear, and the ValueError with message zero vector. -/
inductive LinErr where
  | nonColinear : LinErr
  | zeroVector : LinErr
deriving DecidableEq

deriving instance DecidableEq for Except

/-- Embeds `get_linearity_coeff(u, v)` (source lines 12-50): return `a` so
that `v = a*u`, or fail.  Python truthiness `if u[0]:` is `u.1 ≠ 0`. -/
def get_linearity_coeff (u v : ℚ × ℚ) : Except LinErr ℚ :=
  if u.1 ≠ 0 then
    let a := v.1 / u.1
    if v.2 ≠ a * u.2 then Except.error LinErr.nonColinear else Except.ok a
  else if v.1 ≠ 0 then Except.error LinErr.nonColinear
  else if u.2 ≠ 0 then Except.ok (v.2 / u.2)
  else Except.error LinErr.zeroVector

/-- `SegmentInPolygon` (source lines 52-78): an immutable pair of tangent
vectors; `startv` is the start pointed forward, `endv` the end pointed
backward.  Source `__eq__` compares the two fields componentwise, which is
structure equality here. -/
structure SegmentInPolygon where
  startv : TV
  endv : TV
deriving DecidableEq

/-- `SegmentInPolygon.invert` (source lines 134-135):
`SegmentInPolygon(end, start)` through the explicit two-argument
constructor, i.e. the swap of the two fields. -/
def SegmentInPolygon.invert (s : SegmentInPolygon) : SegmentInPolygon :=
  ⟨s.endv, s.startv⟩

/-- The external geometric operations a similarity surface supplies to the
segment machinery, modelled from the spec:
`fwd` is `TangentVector.forward_to_polygon_boundary` (flow forward to the
polygon boundary and return the boundary point with reversed direction),
`inv` is `TangentVector.invert` (reverse the direction, re-basing a vector
that then points out of its polygon into the adjacent polygon through the
gluing), and `posOf` is the position classification of the base point. -/
structure SegGeom where
  fwd : TV → TV
  inv : TV → TV
  posOf : TV → PtPos

/-- `is_based_at_singularity` of the tangent-bundle collaborator: the base
point is a vertex (spec glossary: singularity = vertex-based). -/
def is_based_at_singularity (G : SegGeom) (v : TV) : Bool :=
  match G.posOf v with
  | PtPos.vtx _ => true
  | _ => false

/-- The one-argument `SegmentInPolygon.__init__` (source lines 71-73):
`end = start.forward_to_polygon_boundary()` and then
`start = end.forward_to_polygon_boundary()`. -/
def mkSegFrom (G : SegGeom) (v : TV) : SegmentInPolygon :=
  let e := G.fwd v
  ⟨G.fwd e, e⟩

/-- `SegmentInPolygon.next` (source lines 137-160): fails when the end is
based at a singularity, else continues through `end.invert()`. -/
def nextS (G : SegGeom) (s : SegmentInPolygon) : Option SegmentInPolygon :=
  if is_based_at_singularity G s.endv then none
  else some (mkSegFrom G (G.inv s.endv))

/-- `SegmentInPolygon.previous` (source lines 162-165).  Note: the source
tests `self.end_is_singular()` (not `start_is_singular`) before building
`SegmentInPolygon(self._start.invert()).invert()`; the embedding keeps that
test as written. -/
def previousS (G : SegGeom) (s : SegmentInPolygon) : Option SegmentInPolygon :=
  if is_based_at_singularity G s.endv then none
  else some (mkSegFrom G (G.inv s.startv)).invert

/-- `get_edge()` of an edge-interior position; on other positions the real
code would raise, the embedding returns a junk index (never reached in the
claims below, where the guard on the position type is always established
first, as in the source's call sites). -/
def edgeOfPos : PtPos → ℕ
  | PtPos.edgeInt e => e
  | _ => 0

namespace SLT

/-- State of `StraightLineTrajectory` (source lines 306-315): the deque of
segments plus the cached `_forward` and `_backward` continuation vectors
(`none` encodes Python `None`). -/
structure State where
  segs : List SegmentInPolygon
  fwdv : Option TV
  bwdv : Option TV
deriving DecidableEq

/-- Junk segment used as the default of head/last lookups; states built by
`init` and `flow` always have a nonempty segment list, as in the source. -/
def dfltSeg : SegmentInPolygon := ⟨⟨0, (0, 0), (0, 0)⟩, ⟨0, (0, 0), (0, 0)⟩⟩

/-- `_setup_forward` (source lines 346-351) as a function of the segment
list: from the terminal tangent vector (last segment's end), `None` if it
is based at a singularity, else its inversion. -/
def forwardOf (G : SegGeom) (segs : List SegmentInPolygon) : Option TV :=
  let v := (segs.getLastD dfltSeg).endv
  if is_based_at_singularity G v then none else some (G.inv v)

/-- `_setup_backward` (source lines 353-358) as a function of the segment
list: from the initial tangent vector (first segment's start). -/
def backwardOf (G : SegGeom) (segs : List SegmentInPolygon) : Option TV :=
  let v := (segs.headD dfltSeg).startv
  if is_based_at_singularity G v then none else some (G.inv v)

/-- `StraightLineTrajectory.__init__` (source lines 310-315). -/
def init (G : SegGeom) (v : TV) : State :=
  let s := mkSegFrom G v
  ⟨[s], forwardOf G [s], backwardOf G [s]⟩

/-- `combinatorial_length` (source lines 340-341). -/
def combinatorial_length (st : State) : ℕ := st.segs.length

/-- `is_forward_separatrix` (source lines 366-367). -/
def is_forward_separatrix (st : State) : Bool := st.fwdv.isNone

/-- `is_backward_separatrix` (source lines 369-370). -/
def is_backward_separatrix (st : State) : Bool := st.bwdv.isNone

/-- `is_saddle_connection` (source lines 372-373). -/
def is_saddle_connection (st : State) : Bool :=
  st.fwdv.isNone && st.bwdv.isNone

/-- `is_closed` (source lines 375-414): not a forward separatrix, and the
forward continuation differs from the initial tangent vector only by
scaling.  (The method reads no geometry beyond the cached vectors.) -/
def is_closed (st : State) : Bool :=
  match st.fwdv with
  | none => false
  | some w => differs_by_scaling w (st.segs.headD dfltSeg).startv

/-- The positive-steps while loop of `flow` (source lines 439-444): while
steps remain, not a forward separatrix, and not closed, append a segment
built from `_forward` and recompute `_forward`. -/
def flowPos (G : SegGeom) : State → ℕ → State
  | st, 0 => st
  | st, Nat.succ n =>
    match st.fwdv with
    | none => st
    | some w =>
      if is_closed st then st
      else
        let segs := st.segs ++ [mkSegFrom G w]
        flowPos G ⟨segs, forwardOf G segs, st.bwdv⟩ n

/-- The negative-steps while loop of `flow` (source lines 445-450): prepend
the inverted segment built from `_backward` and recompute `_backward`. -/
def flowNeg (G : SegGeom) : State → ℕ → State
  | st, 0 => st
  | st, Nat.succ n =>
    match st.bwdv with
    | none => st
    | some w =>
      if is_closed st then st
      else
        let segs := (mkSegFrom G w).invert :: st.segs
        flowNeg G ⟨segs, st.fwdv, backwardOf G segs⟩ n

/-- `flow(steps)` (source lines 416-450): the positive loop runs when
`steps > 0`, the negative loop when `steps < 0`; each stops early when the
corresponding rail is a separatrix or the trajectory is closed. -/
def flow (G : SegGeom) (st : State) (steps : ℤ) : State :=
  if 0 < steps then flowPos G st steps.toNat
  else if steps < 0 then flowNeg G st (-steps).toNat
  else st

/-- `coding` with `alphabet=None` (source lines 274-304): the initial
crossing when the start is edge-interior, the end-edge of every segment but
the last, and the final crossing when the end is edge-interior and its
inversion is not the recorded start. -/
def coding (G : SegGeom) (st : State) : List (ℕ × ℕ) :=
  let s0 := st.segs.headD dfltSeg
  let strt := s0.startv
  let first : List (ℕ × ℕ) :=
    match G.posOf strt with
    | PtPos.edgeInt e => [(s0.startv.label, e)]
    | _ => []
  let mids := st.segs.dropLast.map
    (fun s => (s.startv.label, edgeOfPos (G.posOf s.endv)))
  let sl := st.segs.getLastD dfltSeg
  let last : List (ℕ × ℕ) :=
    match G.posOf sl.endv with
    | PtPos.edgeInt e =>
      if G.inv sl.endv ≠ strt then [(sl.startv.label, e)] else []
    | _ => []
  first ++ mids ++ last

end SLT

/-- The crossing triples `(p, e, x)` stored by
`StraightLineTrajectoryTranslation`: polygon label, edge number, relative
position along the interval of the interval exchange transform. -/
abbrev Triple := ℕ × ℕ × ℚ

/-- The external interfaces the translation-surface trajectory consumes,
modelled from the spec: the gluing map `opposite_edge`, each polygon's
interval exchange transform (`forward_image`, `backward_image`,
`length_bot`, `length_top` for the fixed trajectory direction), the
polygon's vertices and edge vectors, and its number of edges. -/
structure TransSurf where
  opp : ℕ × ℕ → ℕ × ℕ
  fimg : ℕ → ℕ × ℚ → ℕ × ℚ
  bimg : ℕ → ℕ × ℚ → ℕ × ℚ
  lenBot : ℕ → ℕ → ℚ
  lenTop : ℕ → ℕ → ℚ
  vtxP : ℕ → ℕ → ℚ × ℚ
  edgeP : ℕ → ℕ → ℚ × ℚ
  nE : ℕ → ℕ

/-- `_next(p, e, x)` (source lines 511-535): apply the polygon's iet
forward image, then transport across the gluing. -/
def nextT (S : TransSurf) (t : Triple) : Triple :=
  let ex := S.fimg t.1 (t.2.1, t.2.2)
  let pe := S.opp (t.1, ex.1)
  (pe.1, pe.2, ex.2)

/-- `_previous(p, e, x)` (source lines 537-543): transport across the
gluing, then apply the iet backward image. -/
def prevT (S : TransSurf) (t : Triple) : Triple :=
  let pe := S.opp (t.1, t.2.1)
  let ex := S.bimg pe.1 (pe.2, t.2.2)
  (pe.1, ex.1, ex.2)

namespace SLTT

/-- State of `StraightLineTrajectoryTranslation`: the deque of triples.
The fixed direction vector and the surface are carried as parameters of
the operations.  The `_get_iet` per-polygon cache is a pure memoisation in
the source and is modelled by calling the transform directly. -/
structure State where
  points : List Triple
deriving DecidableEq

/-- Default triple for head/last lookups; states built by `init` and `flow`
always store at least one triple, as in the source. -/
def d0 : Triple := (0, 0, 0)

/-- `StraightLineTrajectoryTranslation.__init__` (source lines 486-509):
take the start of the segment through the initial tangent vector, read off
its boundary position, compute the coefficient of the start point along
that edge with `get_linearity_coeff`, scale by `length_bot`, and seed the
one-element triple list.  On an interior position the source raises
RuntimeError; the embedding returns edge index 0 there (never reached: the
start of a segment lies on the boundary). -/
def init (G : SegGeom) (S : TransSurf) (v : TV) : State :=
  let strt := (mkSegFrom G v).startv
  let i : ℕ :=
    match G.posOf strt with
    | PtPos.edgeInt e => e
    | PtPos.vtx k => k
    | PtPos.interior => 0
  let p := strt.label
  let w0 := S.vtxP p i
  let w1 := S.vtxP p ((i + 1) % S.nE p)
  let c : ℚ :=
    match get_linearity_coeff (w1.1 - w0.1, w1.2 - w0.2)
        (strt.pt.1 - w0.1, strt.pt.2 - w0.2) with
    | Except.ok c => c
    | Except.error _ => 0
  ⟨[(p, i, c * S.lenBot p i)]⟩

/-- `combinatorial_length` (source lines 545-546). -/
def combinatorial_length (st : State) : ℕ := st.points.length

/-- `is_closed` (source lines 597-598): the first stored triple equals the
image of the last one. -/
def is_closed (S : TransSurf) (st : State) : Bool :=
  decide (st.points.headD d0 = nextT S (st.points.getLastD d0))

/-- `is_forward_separatrix` (source lines 600-602): one more forward step
from the last triple lands at zero offset. -/
def is_forward_separatrix (S : TransSurf) (st : State) : Bool :=
  decide ((nextT S (st.points.getLastD d0)).2.2 = 0)

/-- `is_backward_separatrix` (source lines 604-605): the first stored
triple has zero offset. -/
def is_backward_separatrix (st : State) : Bool :=
  decide ((st.points.headD d0).2.2 = 0)

/-- `is_saddle_connection` (source lines 607-628). -/
def is_saddle_connection (S : TransSurf) (st : State) : Bool :=
  is_forward_separatrix S st && is_backward_separatrix st

/-- The positive branch of `flow` (source lines 631-637): repeatedly take
`_next` of the running triple, breaking (without appending) when it equals
the very first triple or has zero offset.  The running triple is always the
current last stored one, and appending never changes the first one. -/
def flowPos (S : TransSurf) : State → ℕ → State
  | st, 0 => st
  | st, Nat.succ n =>
    let t := nextT S (st.points.getLastD d0)
    if t = st.points.headD d0 ∨ t.2.2 = 0 then st
    else flowPos S ⟨st.points ++ [t]⟩ n

/-- The negative branch of `flow` (source lines 638-647): break when the
running (first) triple already has zero offset, step back with `_previous`,
break when the result equals the last stored triple, else prepend. -/
def flowNeg (S : TransSurf) : State → ℕ → State
  | st, 0 => st
  | st, Nat.succ n =>
    let t := st.points.headD d0
    if t.2.2 = 0 then st
    else
      let s := prevT S t
      if s = st.points.getLastD d0 then st
      else flowNeg S ⟨s :: st.points⟩ n

/-- `flow(steps)` (source lines 630-647). -/
def flow (S : TransSurf) (st : State) (steps : ℤ) : State :=
  if 0 < steps then flowPos S st steps.toNat
  else if steps < 0 then flowNeg S st (-steps).toNat
  else st

/-- `segment(i)` (source lines 558-592): rebuild a full `SegmentInPolygon`
from triple `i`, via the iet forward image and the polygon geometry. -/
def segment (S : TransSurf) (vec : ℚ × ℚ) (st : State) (i : ℕ) :
    SegmentInPolygon :=
  let t := st.points.getD i d0
  let lab := t.1
  let e0 := t.2.1
  let x0 := t.2.2
  let ex := S.fimg lab (e0, x0)
  let l0 := S.lenBot lab e0
  let l1 := S.lenTop lab ex.1
  let v0 := S.vtxP lab e0
  let u0 := S.edgeP lab e0
  let v1 := S.vtxP lab ex.1
  let u1 := S.edgeP lab ex.1
  let point0 := (v0.1 + u0.1 * (x0 / l0), v0.2 + u0.2 * (x0 / l0))
  let point1 := (v1.1 + u1.1 * ((l1 - ex.2) / l1),
                 v1.2 + u1.2 * ((l1 - ex.2) / l1))
  ⟨⟨lab, point0, vec⟩, ⟨lab, point1, (-vec.1, -vec.2)⟩⟩

end SLTT

/-- Error raised by the Python runtime. -/
inductive PyErr where
  | typeError : PyErr
deriving DecidableEq

/-- A fragment of Python's value model, enough to express iteration:
iterating is only defined on iterable values; an int is not iterable. -/
inductive PyVal where
  | pyInt : ℕ → PyVal
  | pyList : List PyVal → PyVal

/-- Modelled from Python semantics: `for i in x` requires `x` to be
iterable; on an int it raises TypeError. -/
def pyIterate : PyVal → Except PyErr (List PyVal)
  | PyVal.pyInt _ => Except.error PyErr.typeError
  | PyVal.pyList l => Except.ok l

/-- Read the payload of an int value (unused fallback 0 otherwise). -/
def pyToNat : PyVal → ℕ
  | PyVal.pyInt n => n
  | _ => 0

namespace SLTT

/-- `segments()` (source lines 594-595):
`[self.segment(i) for i in self.combinatorial_length()]` — the
comprehension iterates directly over the int returned by
`combinatorial_length()`. -/
def segments (S : TransSurf) (vec : ℚ × ℚ) (st : State) :
    Except PyErr (List SegmentInPolygon) :=
  match pyIterate (PyVal.pyInt (combinatorial_length st)) with
  | Except.error e => Except.error e
  | Except.ok idxs => Except.ok (idxs.map (fun i => segment S vec st (pyToNat i)))

end SLTT

/-
The square torus: the unit square `[0,1] × [0,1]` with opposite edges
glued, vertices `v0 = (0,0)`, `v1 = (1,0)`, `v2 = (1,1)`, `v3 = (0,1)`,
edges `e0` bottom, `e1` right, `e2` top, `e3` left, gluing
`opposite_edge(0, e) = (0, (e+2) % 4)`.  This instantiates the external
collaborators, modelled from the spec, for the surface used by the
source's doctests.
-/

/-- Time at which a ray leaves the strip `0 ≤ coordinate ≤ 1` along one
axis: `none` when the component is zero (no constraint from that axis). -/
def axisTime (x d : ℚ) : Option ℚ :=
  if 0 < d then some ((1 - x) / d)
  else if d < 0 then some (x / (-d))
  else none

/-- Minimum of two optional exit times (0 as junk when both are absent,
which happens only for the zero direction). -/
def minOpt : Option ℚ → Option ℚ → ℚ
  | some s, some t => min s t
  | some s, none => s
  | none, some t => t
  | none, none => 0

/-- Forward exit point of the ray from `p` in direction `d` out of the
unit square. -/
def tfwd (p d : ℚ × ℚ) : ℚ × ℚ :=
  let t := minOpt (axisTime p.1 d.1) (axisTime p.2 d.2)
  (p.1 + t * d.1, p.2 + t * d.2)

/-- Vertex index of a corner of the unit square. -/
def vtxIdx (p : ℚ × ℚ) : ℕ :=
  if p = (0, 0) then 0
  else if p = (1, 0) then 1
  else if p = (1, 1) then 2
  else 3

/-- Position classification of a point of the unit square. -/
def tclassify (p : ℚ × ℚ) : PtPos :=
  if (p.1 = 0 ∨ p.1 = 1) ∧ (p.2 = 0 ∨ p.2 = 1) then PtPos.vtx (vtxIdx p)
  else if p.2 = 0 then PtPos.edgeInt 0
  else if p.1 = 1 then PtPos.edgeInt 1
  else if p.2 = 1 then PtPos.edgeInt 2
  else if p.1 = 0 then PtPos.edgeInt 3
  else PtPos.interior

/-- Modelled from the spec: canonical re-basing of a tangent vector of the
square torus.  A boundary-based vector whose direction points out of the
square is re-based through the gluing (translation by the gluing of the
torus); at a corner the representative is the corner from which the
direction points into the square.  Vectors pointing inward are kept. -/
def trebase (p d : ℚ × ℚ) : ℚ × ℚ :=
  if (p.1 = 0 ∨ p.1 = 1) ∧ (p.2 = 0 ∨ p.2 = 1) then
    ((if 0 < d.1 then 0 else if d.1 < 0 then 1 else p.1),
     (if 0 < d.2 then 0 else if d.2 < 0 then 1 else p.2))
  else if p.2 = 0 ∧ d.2 < 0 then (p.1, 1)
  else if p.2 = 1 ∧ 0 < d.2 then (p.1, 0)
  else if p.1 = 0 ∧ d.1 < 0 then (1, p.2)
  else if p.1 = 1 ∧ 0 < d.1 then (0, p.2)
  else p

/-- `forward_to_polygon_boundary` on the square torus: flow forward to the
boundary and reverse the direction. -/
def torusFwd (v : TV) : TV :=
  ⟨0, tfwd v.pt v.dir, (-v.dir.1, -v.dir.2)⟩

/-- `invert` on the square torus: reverse the direction and re-base
canonically. -/
def torusInv (v : TV) : TV :=
  ⟨0, trebase v.pt (-v.dir.1, -v.dir.2), (-v.dir.1, -v.dir.2)⟩

/-- The square torus as a `SegGeom`. -/
def torusG : SegGeom :=
  ⟨torusFwd, torusInv, fun v => tclassify v.pt⟩

/-
The interval exchange transform of the unit square for a direction
`(a, b)` with `a, b > 0`.  Projecting a point `(x, y)` to
`g = x*b - y*a` (the wedge with the direction), the bottom boundary is
edge 3 over `[-a, 0)` followed by edge 0 over `[0, b)`, the top boundary
is edge 2 over `[-a, b-a)` followed by edge 1 over `[b-a, b)`; offsets are
measured from the left end of each subinterval, so `length_bot` is `b` on
edge 0 and `a` on edge 3, and `length_top` is `a` on edge 1 and `b` on
edge 2.  This convention is fixed by the source's doctests (the origami
doctest of `_next` and the saddle-connection doctests). -/

/-- `forward_image` of the square's flow map in direction `(a, b)`,
`a, b > 0`. -/
def tforward_image (a b : ℚ) (e : ℕ) (x : ℚ) : ℕ × ℚ :=
  let g : ℚ := if e = 3 then x - a else x
  if g < b - a then (2, g + a) else (1, g - (b - a))

/-- `backward_image` of the square's flow map in direction `(a, b)`,
`a, b > 0`. -/
def tbackward_image (a b : ℚ) (e : ℕ) (x : ℚ) : ℕ × ℚ :=
  let g : ℚ := if e = 1 then b - a + x else x - a
  if g < 0 then (3, g + a) else (0, g)

/-- The square torus as a `TransSurf`, for the direction `(a, b)` with
`a, b > 0` fixed at construction of the trajectory (the iet depends on the
direction). -/
def torusTS (a b : ℚ) : TransSurf :=
  { opp := fun pe => (pe.1, (pe.2 + 2) % 4)
    fimg := fun _ ex => tforward_image a b ex.1 ex.2
    bimg := fun _ ex => tbackward_image a b ex.1 ex.2
    lenBot := fun _ e => if e = 0 then b else if e = 3 then a else 0
    lenTop := fun _ e => if e = 1 then a else if e = 2 then b else 0
    vtxP := fun _ k =>
      if k = 0 then (0, 0) else if k = 1 then (1, 0)
      else if k = 2 then (1, 1) else (0, 1)
    edgeP := fun _ e =>
      if e = 0 then (1, 0) else if e = 1 then (0, 1)
      else if e = 2 then (-1, 0) else (0, -1)
    nE := fun _ => 4 }

/-
Claim theorems.
-/

/-- C9: for every constructed `SegmentInPolygon` `s`,
`s.invert().invert() == s`, where invert swaps the start and end tangent
vectors and equality compares start and end componentwise. -/
theorem c9_invert_involutive (s : SegmentInPolygon) :
    s.invert.invert = s := rfl

/-- C10: every `StraightLineTrajectoryTranslation` holds at least one
triple, and calling `segments()` raises a TypeError because it iterates
directly over the integer returned by `combinatorial_length()`; the public
`segments()` interface of this trajectory type never returns a value. -/
theorem c10_segments_raises_type_error :
    (∀ (S : TransSurf) (vec : ℚ × ℚ) (st : SLTT.State),
      SLTT.segments S vec st = Except.error PyErr.typeError) ∧
    (∀ (G : SegGeom) (S : TransSurf) (v : TV),
      (SLTT.init G S v).points.length = 1) := by
  constructor
  · intro S vec st
    rfl
  · intro G S v
    rfl

/-- C2 (code evaluation at the failing inputs): `previous()` tests
`end_is_singular()` instead of `start_is_singular()`.  On the square torus,
the segment through `((1/2, 0), (1, 2))` has a non-singular start and a
singular end (the corner `(1, 1)`), yet `previous()` raises; the segment
through `((0, 0), (1, 2))` has a singular start and a non-singular end,
yet `previous()` returns a segment. -/
theorem c2_previous_checks_wrong_endpoint :
    (previousS torusG (mkSegFrom torusG ⟨0, (1/2, 0), (1, 2)⟩) = none ∧
     is_based_at_singularity torusG
       (mkSegFrom torusG ⟨0, (1/2, 0), (1, 2)⟩).startv = false) ∧
    (previousS torusG (mkSegFrom torusG ⟨0, (0, 0), (1, 2)⟩) ≠ none ∧
     is_based_at_singularity torusG
       (mkSegFrom torusG ⟨0, (0, 0), (1, 2)⟩).startv = true) := by
  norm_num [previousS, mkSegFrom, torusG, torusFwd, torusInv, tfwd, trebase,
    tclassify, axisTime, minOpt, is_based_at_singularity, vtxIdx, min_def]
  simp

/-- C5 (code evaluation at the failing input): on the square torus, for the
segment `s` through `((0, 1/3), (3, 1))`, `s.next()` succeeds (the end of
`s` is not singular) but `s.next().previous()` raises, because the next
segment ends at the corner `(1, 1)` and `previous()` tests the end of its
receiver; hence `s.next().previous() == s` fails. -/
theorem c5_next_previous_raises :
    nextS torusG (mkSegFrom torusG ⟨0, (0, 1/3), (3, 1)⟩) ≠ none ∧
    (nextS torusG (mkSegFrom torusG ⟨0, (0, 1/3), (3, 1)⟩)).bind
      (previousS torusG) = none := by
  norm_num [nextS, previousS, mkSegFrom, torusG, torusFwd, torusInv, tfwd,
    trebase, tclassify, axisTime, minOpt, is_based_at_singularity, vtxIdx,
    min_def, Option.bind]
  simp

/-- C3 (counterexample): for `u = (0, 0)` and `v = (1, 0)` the helper does
not fail with the zero-vector error (it fails with the not-colinear error,
from the `v.x ≠ 0` branch), refuting the claim that `u = (0,0)` always
produces the zero-vector error. -/
theorem c3_counterexample :
    get_linearity_coeff (0, 0) (1, 0) = Except.error LinErr.nonColinear ∧
    get_linearity_coeff (0, 0) (1, 0) ≠ Except.error LinErr.zeroVector := by
  decide

/-- C3 (amended): if `u` is nonzero and `v = a*u`, the helper returns
exactly `a`; if `u` is nonzero and `v` is not a scalar multiple of `u`, it
fails with the not-colinear error; if `u = (0,0)` and `v.x ≠ 0` it fails
with the not-colinear error; if `u = (0,0)` and `v.x = 0` it fails with
the zero-vector error. -/
theorem c3_amended_linearity_coeff :
    (∀ (u : ℚ × ℚ) (a : ℚ), u ≠ (0, 0) →
      get_linearity_coeff u (a * u.1, a * u.2) = Except.ok a) ∧
    (∀ u v : ℚ × ℚ, u ≠ (0, 0) → (∀ a : ℚ, v ≠ (a * u.1, a * u.2)) →
      get_linearity_coeff u v = Except.error LinErr.nonColinear) ∧
    (∀ v : ℚ × ℚ, v.1 ≠ 0 →
      get_linearity_coeff (0, 0) v = Except.error LinErr.nonColinear) ∧
    (∀ v : ℚ × ℚ, v.1 = 0 →
      get_linearity_coeff (0, 0) v = Except.error LinErr.zeroVector) := by
  refine ⟨?_, ?_, ?_, ?_⟩
  · intro u a hu
    by_cases h1 : u.1 = 0
    · have h2 : u.2 ≠ 0 := fun h2 => hu (Prod.ext h1 h2)
      simp only [get_linearity_coeff, ne_eq, h1]
      rw [if_neg (by simp), if_neg (by simp), if_pos h2]
      rw [mul_div_cancel_right₀ a h2]
    · simp only [get_linearity_coeff, ne_eq]
      rw [if_pos h1, mul_div_cancel_right₀ a h1, if_neg (by simp)]
  · intro u v hu hav
    by_cases h1 : u.1 = 0
    · by_cases hv1 : v.1 = 0
      · exfalso
        have h2 : u.2 ≠ 0 := fun h2 => hu (Prod.ext h1 h2)
        exact hav (v.2 / u.2)
          (Prod.ext (by rw [h1, mul_zero, hv1]) (div_mul_cancel₀ v.2 h2).symm)
      · simp only [get_linearity_coeff, ne_eq]
        rw [if_neg (by simp [h1]), if_pos hv1]
    · have hc : ¬ (v.2 = v.1 / u.1 * u.2) := by
        intro hv2
        exact hav (v.1 / u.1) (Prod.ext (div_mul_cancel₀ v.1 h1).symm hv2)
      simp only [get_linearity_coeff, ne_eq]
      rw [if_pos h1, if_pos hc]
  · rintro ⟨v1, v2⟩ hv
    norm_num [get_linearity_coeff, hv]
  · rintro ⟨v1, v2⟩ hv
    have hv1 : v1 = 0 := hv
    subst hv1
    norm_num [get_linearity_coeff]

/-- C3 witness: the amended characterization applied at concrete inputs:
`(1,2)` with scalar `3`, the non-colinear pair `(1,1), (-1,1)`, and the
two zero-vector cases. -/
theorem c3_amended_witness :
    get_linearity_coeff (1, 2) (3 * 1, 3 * 2) = Except.ok 3 ∧
    get_linearity_coeff (1, 1) (-1, 1) = Except.error LinErr.nonColinear ∧
    get_linearity_coeff (0, 0) (2, 5) = Except.error LinErr.nonColinear ∧
    get_linearity_coeff (0, 0) (0, 7) = Except.error LinErr.zeroVector := by
  refine ⟨c3_amended_linearity_coeff.1 (1, 2) 3 (by norm_num [Prod.ext_iff]),
    c3_amended_linearity_coeff.2.1 (1, 1) (-1, 1) (by norm_num [Prod.ext_iff]) ?_,
    c3_amended_linearity_coeff.2.2.1 (2, 5) (by norm_num),
    c3_amended_linearity_coeff.2.2.2 (0, 7) (by norm_num)⟩
  intro a h
  rw [Prod.ext_iff] at h
  simp only [mul_one] at h
  obtain ⟨h1, h2⟩ := h
  rw [← h2] at h1
  norm_num at h1

/-- C4 (counterexample): on the square torus with direction `(1, 2)`, the
trajectory started at `(1/2, 0)` stores the single triple `(0, 0, 1)`;
applying `_previous` to it lands at offset exactly zero (the previous
segment would start at the vertex `(0, 0)`), yet `is_backward_separatrix()`
returns false because the code only tests the first stored triple's own
offset. -/
theorem c4_counterexample :
    ¬ (SLTT.is_backward_separatrix
        (SLTT.init torusG (torusTS 1 2) ⟨0, (1/2, 0), (1, 2)⟩) = true ↔
      (prevT (torusTS 1 2)
        ((SLTT.init torusG (torusTS 1 2) ⟨0, (1/2, 0), (1, 2)⟩).points.headD
          SLTT.d0)).2.2 = 0) := by
  norm_num [SLTT.is_backward_separatrix, SLTT.init, SLTT.d0, prevT,
    mkSegFrom, torusG, torusFwd, torusInv, tfwd, trebase, tclassify,
    axisTime, minOpt, vtxIdx, min_def, get_linearity_coeff, torusTS,
    tbackward_image]

/-- C4 (amended): `is_backward_separatrix()` returns true iff the first
stored triple has exactly zero offset — equivalently (whenever the entry
edge has nonzero length and a nonzero edge vector) iff the reconstructed
`segment(0)` starts at the polygon vertex at the tail of its entry edge.
It does not look ahead through `_previous`; only `is_forward_separatrix()`
looks ahead (through `_next`), because the forward endpoint is not stored
while the backward endpoint is the first triple itself. -/
theorem c4_amended_backward_separatrix (S : TransSurf) (vec : ℚ × ℚ)
    (st : SLTT.State) (hne : st.points ≠ [])
    (hlen : S.lenBot (st.points.headD SLTT.d0).1
      (st.points.headD SLTT.d0).2.1 ≠ 0)
    (hedge : S.edgeP (st.points.headD SLTT.d0).1
      (st.points.headD SLTT.d0).2.1 ≠ (0, 0)) :
    SLTT.is_backward_separatrix st = true ↔
      (SLTT.segment S vec st 0).startv.pt
        = S.vtxP (st.points.headD SLTT.d0).1 (st.points.headD SLTT.d0).2.1 := by
  obtain ⟨pts⟩ := st
  cases pts with
  | nil => exact absurd rfl hne
  | cons t ts =>
    have hhd : ((⟨t :: ts⟩ : SLTT.State).points).headD SLTT.d0 = t := rfl
    rw [hhd] at hlen hedge ⊢
    simp only [SLTT.is_backward_separatrix, SLTT.segment, hhd,
      decide_eq_true_eq, List.getD_cons_zero]
    constructor
    · intro h0
      rw [h0]
      simp
    · intro h
      rw [Prod.ext_iff] at h
      obtain ⟨h1, h2⟩ := h
      by_cases hx : t.2.2 / S.lenBot t.1 t.2.1 = 0
      · rcases div_eq_zero_iff.mp hx with h | h
        · exact h
        · exact absurd h hlen
      · exfalso
        apply hedge
        have e1 : (S.edgeP t.1 t.2.1).1 = 0 := by
          rcases mul_eq_zero.mp (add_right_eq_self.mp h1) with h | h
          · exact h
          · exact absurd h hx
        have e2 : (S.edgeP t.1 t.2.1).2 = 0 := by
          rcases mul_eq_zero.mp (add_right_eq_self.mp h2) with h | h
          · exact h
          · exact absurd h hx
        exact Prod.ext e1 e2

/-- C4 witness: the amended characterization applied to the trajectory
started at `(1/3, 2/3)` with direction `(1, 2)` on the square torus, whose
first stored triple is `(0, 0, 0)`: it is a backward separatrix and its
`segment(0)` starts at the vertex `(0, 0)`. -/
theorem c4_amended_witness :
    SLTT.is_backward_separatrix
        (SLTT.init torusG (torusTS 1 2) ⟨0, (1/3, 2/3), (1, 2)⟩) = true ↔
      (SLTT.segment (torusTS 1 2) (1, 2)
          (SLTT.init torusG (torusTS 1 2) ⟨0, (1/3, 2/3), (1, 2)⟩) 0).startv.pt
        = (torusTS 1 2).vtxP
            ((SLTT.init torusG (torusTS 1 2)
              ⟨0, (1/3, 2/3), (1, 2)⟩).points.headD SLTT.d0).1
            ((SLTT.init torusG (torusTS 1 2)
              ⟨0, (1/3, 2/3), (1, 2)⟩).points.headD SLTT.d0).2.1 :=
  c4_amended_backward_separatrix (torusTS 1 2) (1, 2) _
    (by norm_num [SLTT.init, mkSegFrom, torusG, torusFwd, torusInv, tfwd,
      trebase, tclassify, axisTime, minOpt, vtxIdx, min_def,
      get_linearity_coeff, torusTS])
    (by norm_num [SLTT.init, mkSegFrom, torusG, torusFwd, torusInv, tfwd,
      trebase, tclassify, axisTime, minOpt, vtxIdx, min_def,
      get_linearity_coeff, torusTS, SLTT.d0])
    (by norm_num [SLTT.init, mkSegFrom, torusG, torusFwd, torusInv, tfwd,
      trebase, tclassify, axisTime, minOpt, vtxIdx, min_def,
      get_linearity_coeff, torusTS, SLTT.d0, Prod.ext_iff])

/-- C6: once `is_closed()` is true, a further `flow(steps)` call with
`steps > 0` is a no-op: the stored segments are unchanged, so
`combinatorial_length()` is unchanged (no segment is appended). -/
theorem c6_closed_flow_is_noop (G : SegGeom) (st : SLT.State)
    (hc : SLT.is_closed st = true) (steps : ℤ) (hs : 0 < steps) :
    SLT.flow G st steps = st ∧
    SLT.combinatorial_length (SLT.flow G st steps)
      = SLT.combinatorial_length st := by
  have key : ∀ n, SLT.flowPos G st n = st := by
    intro n
    cases n with
    | zero => rfl
    | succ n =>
      cases h : st.fwdv with
      | none => simp only [SLT.flowPos, h]
      | some w => simp only [SLT.flowPos, h, hc, if_true]
  have h1 : SLT.flow G st steps = st := by
    simp only [SLT.flow]
    rw [if_pos hs]
    exact key _
  exact ⟨h1, by rw [h1]⟩

/-- C6 witness: on the square torus, the trajectory from `(1/5, 1/7)` in
direction `(1, 1)` is closed after one flow step; flowing it 7 more steps
changes nothing. -/
theorem c6_witness :
    SLT.is_closed (SLT.flow torusG (SLT.init torusG ⟨0, (1/5, 1/7), (1, 1)⟩) 1)
      = true ∧
    (SLT.flow torusG
        (SLT.flow torusG (SLT.init torusG ⟨0, (1/5, 1/7), (1, 1)⟩) 1) 7
      = SLT.flow torusG (SLT.init torusG ⟨0, (1/5, 1/7), (1, 1)⟩) 1 ∧
    SLT.combinatorial_length (SLT.flow torusG
        (SLT.flow torusG (SLT.init torusG ⟨0, (1/5, 1/7), (1, 1)⟩) 1) 7)
      = SLT.combinatorial_length
          (SLT.flow torusG (SLT.init torusG ⟨0, (1/5, 1/7), (1, 1)⟩) 1)) := by
  have hc : SLT.is_closed
      (SLT.flow torusG (SLT.init torusG ⟨0, (1/5, 1/7), (1, 1)⟩) 1) = true := by
    norm_num [SLT.flow, SLT.flowPos, SLT.init, SLT.is_closed, SLT.forwardOf,
      SLT.backwardOf, SLT.dfltSeg, differs_by_scaling, mkSegFrom, torusG,
      torusFwd, torusInv, tfwd, trebase, tclassify, axisTime, minOpt,
      is_based_at_singularity, vtxIdx, min_def, decide_eq_true_eq]
  exact ⟨hc, c6_closed_flow_is_noop torusG _ hc 7 (by norm_num)⟩

/-- C7: once `is_saddle_connection()` is true, `flow(steps)` is a no-op in
either direction, for both trajectory types: the stored segment/triple
sequence is unchanged and no error is raised (the loops stop before any
step). -/
theorem c7_saddle_connection_flow_is_noop :
    (∀ (G : SegGeom) (st : SLT.State) (steps : ℤ),
      SLT.is_saddle_connection st = true → SLT.flow G st steps = st) ∧
    (∀ (S : TransSurf) (st : SLTT.State) (steps : ℤ),
      SLTT.is_saddle_connection S st = true → SLTT.flow S st steps = st) := by
  constructor
  · intro G st steps hs
    rw [SLT.is_saddle_connection, Bool.and_eq_true] at hs
    obtain ⟨hf, hb⟩ := hs
    rw [Option.isNone_iff_eq_none] at hf hb
    have hpos : ∀ n, SLT.flowPos G st n = st := by
      intro n
      cases n with
      | zero => rfl
      | succ n => simp only [SLT.flowPos, hf]
    have hneg : ∀ n, SLT.flowNeg G st n = st := by
      intro n
      cases n with
      | zero => rfl
      | succ n => simp only [SLT.flowNeg, hb]
    simp only [SLT.flow]
    split_ifs
    · exact hpos _
    · exact hneg _
    · rfl
  · intro S st steps hs
    rw [SLTT.is_saddle_connection, Bool.and_eq_true] at hs
    obtain ⟨hf, hb⟩ := hs
    rw [SLTT.is_forward_separatrix, decide_eq_true_eq] at hf
    rw [SLTT.is_backward_separatrix, decide_eq_true_eq] at hb
    have hpos : ∀ n, SLTT.flowPos S st n = st := by
      intro n
      cases n with
      | zero => rfl
      | succ n =>
        simp only [SLTT.flowPos]
        rw [if_pos (Or.inr hf)]
    have hneg : ∀ n, SLTT.flowNeg S st n = st := by
      intro n
      cases n with
      | zero => rfl
      | succ n =>
        simp only [SLTT.flowNeg]
        rw [if_pos hb]
    simp only [SLTT.flow]
    split_ifs
    · exact hpos _
    · exact hneg _
    · rfl

/-- C7 witness: on the square torus, the trajectory from `(1/2, 1/2)` in
direction `(1, 1)` is a saddle connection (it runs from the corner to the
corner) for both trajectory types; flowing by `3` or `-3` changes
nothing. -/
theorem c7_witness :
    (SLT.is_saddle_connection (SLT.init torusG ⟨0, (1/2, 1/2), (1, 1)⟩)
        = true ∧
      SLT.flow torusG (SLT.init torusG ⟨0, (1/2, 1/2), (1, 1)⟩) 3
        = SLT.init torusG ⟨0, (1/2, 1/2), (1, 1)⟩ ∧
      SLT.flow torusG (SLT.init torusG ⟨0, (1/2, 1/2), (1, 1)⟩) (-3)
        = SLT.init torusG ⟨0, (1/2, 1/2), (1, 1)⟩) ∧
    (SLTT.is_saddle_connection (torusTS 1 1)
        (SLTT.init torusG (torusTS 1 1) ⟨0, (1/2, 1/2), (1, 1)⟩) = true ∧
      SLTT.flow (torusTS 1 1)
          (SLTT.init torusG (torusTS 1 1) ⟨0, (1/2, 1/2), (1, 1)⟩) 3
        = SLTT.init torusG (torusTS 1 1) ⟨0, (1/2, 1/2), (1, 1)⟩ ∧
      SLTT.flow (torusTS 1 1)
          (SLTT.init torusG (torusTS 1 1) ⟨0, (1/2, 1/2), (1, 1)⟩) (-3)
        = SLTT.init torusG (torusTS 1 1) ⟨0, (1/2, 1/2), (1, 1)⟩) := by
  have h1 : SLT.is_saddle_connection (SLT.init torusG ⟨0, (1/2, 1/2), (1, 1)⟩)
      = true := by
    norm_num [SLT.init, SLT.is_saddle_connection, SLT.forwardOf,
      SLT.backwardOf, SLT.dfltSeg, mkSegFrom, torusG, torusFwd, torusInv,
      tfwd, trebase, tclassify, axisTime, minOpt, is_based_at_singularity,
      vtxIdx, min_def]
  have h2 : SLTT.is_saddle_connection (torusTS 1 1)
      (SLTT.init torusG (torusTS 1 1) ⟨0, (1/2, 1/2), (1, 1)⟩) = true := by
    norm_num [SLTT.init, SLTT.is_saddle_connection,
      SLTT.is_forward_separatrix, SLTT.is_backward_separatrix, SLTT.d0,
      nextT, mkSegFrom, torusG, torusFwd, torusInv, tfwd, trebase, tclassify,
      axisTime, minOpt, vtxIdx, min_def, get_linearity_coeff, torusTS,
      tforward_image, decide_eq_true_eq]
  exact ⟨⟨h1, c7_saddle_connection_flow_is_noop.1 torusG _ 3 h1,
      c7_saddle_connection_flow_is_noop.1 torusG _ (-3) h1⟩,
    ⟨h2, c7_saddle_connection_flow_is_noop.2 (torusTS 1 1) _ 3 h2,
      c7_saddle_connection_flow_is_noop.2 (torusTS 1 1) _ (-3) h2⟩⟩

/-- The k-fold iteration of `_next`, used to characterize the positive
flow of the translation trajectory. -/
def nextIter (S : TransSurf) (t : Triple) : ℕ → Triple
  | 0 => t
  | Nat.succ k => nextT S (nextIter S t k)

/-- Iterating from the image shifts the iteration count by one. -/
theorem nextIter_shift (S : TransSurf) (t : Triple) (k : ℕ) :
    nextIter S (nextT S t) k = nextIter S t (k + 1) := by
  induction k with
  | zero => rfl
  | succ k ih =>
    simp only [nextIter]
    rw [ih]
    rfl

/-- Characterization of the positive flow loop of the translation
trajectory in terms of iterated `_next` (helper for C8). -/
theorem c8_aux (S : TransSurf) :
    ∀ (n : ℕ) (st : SLTT.State), st.points ≠ [] →
    ∃ m : ℕ, m ≤ n ∧
      (SLTT.flowPos S st n).points
        = st.points ++ (List.range m).map
            (fun j => nextIter S (st.points.getLastD SLTT.d0) (j + 1)) ∧
      (∀ j : ℕ, j < m →
        nextIter S (st.points.getLastD SLTT.d0) (j + 1)
            ≠ st.points.headD SLTT.d0 ∧
        (nextIter S (st.points.getLastD SLTT.d0) (j + 1)).2.2 ≠ 0) ∧
      (m < n →
        nextIter S (st.points.getLastD SLTT.d0) (m + 1)
            = st.points.headD SLTT.d0 ∨
        (nextIter S (st.points.getLastD SLTT.d0) (m + 1)).2.2 = 0) := by
  intro n
  induction n with
  | zero =>
    intro st hne
    refine ⟨0, le_refl 0, by simp [SLTT.flowPos], ?_, ?_⟩
    · intro j hj
      exact absurd hj (Nat.not_lt_zero j)
    · intro h
      exact absurd h (Nat.lt_irrefl 0)
  | succ n ih =>
    intro st hne
    by_cases hstop :
        nextT S (st.points.getLastD SLTT.d0) = st.points.headD SLTT.d0 ∨
        (nextT S (st.points.getLastD SLTT.d0)).2.2 = 0
    · refine ⟨0, Nat.zero_le _, ?_, ?_, ?_⟩
      · simp only [SLTT.flowPos]
        rw [if_pos hstop]
        simp
      · intro j hj
        exact absurd hj (Nat.not_lt_zero j)
      · intro _
        exact hstop
    · push_neg at hstop
      obtain ⟨hs1, hs2⟩ := hstop
      have step : SLTT.flowPos S st (n + 1)
          = SLTT.flowPos S ⟨st.points ++ [nextT S (st.points.getLastD SLTT.d0)]⟩ n := by
        simp only [SLTT.flowPos]
        rw [if_neg]
        push_neg
        exact ⟨hs1, hs2⟩
      obtain ⟨m, hm, hpts, hgood, hstopc⟩ :=
        ih ⟨st.points ++ [nextT S (st.points.getLastD SLTT.d0)]⟩ (by simp)
      have hlast :
          (st.points ++ [nextT S (st.points.getLastD SLTT.d0)]).getLastD SLTT.d0
            = nextT S (st.points.getLastD SLTT.d0) := by
        rw [List.getLastD_concat]
      have hhead :
          (st.points ++ [nextT S (st.points.getLastD SLTT.d0)]).headD SLTT.d0
            = st.points.headD SLTT.d0 := by
        cases h : st.points with
        | nil => exact absurd h hne
        | cons a l => rfl
      dsimp only at hpts hgood hstopc
      rw [hlast] at hpts hgood hstopc
      rw [hhead] at hgood hstopc
      refine ⟨m + 1, by omega, ?_, ?_, ?_⟩
      · rw [step, hpts, List.append_assoc]
        congr 1
        rw [List.range_succ_eq_map, List.map_cons, List.map_map,
          List.singleton_append]
        congr 1
        refine List.map_congr_left ?_
        intro j _
        simp only [Function.comp]
        rw [nextIter_shift]
      · intro j hj
        cases j with
        | zero => exact ⟨hs1, hs2⟩
        | succ j =>
          have := hgood j (by omega)
          rw [nextIter_shift] at this
          exact this
      · intro h
        have := hstopc (by omega)
        rw [nextIter_shift] at this
        exact this

/-- C8: for `steps > 0`, the translation trajectory's `flow` applies
`_next` at most `steps` times starting from the last stored triple,
appending exactly the iterated images until (exclusively) the first one
that equals the very first stored triple or has exactly zero offset; every
appended triple differs from the first stored one and has nonzero offset
(so a zero-offset triple is never appended), and when fewer than `steps`
triples are appended the next iterate is such a stopping triple (normal
termination, no error). -/
theorem c8_flow_positive_characterization (S : TransSurf) (st : SLTT.State)
    (steps : ℤ) (hs : 0 < steps) (hne : st.points ≠ []) :
    ∃ m : ℕ, m ≤ steps.toNat ∧
      (SLTT.flow S st steps).points
        = st.points ++ (List.range m).map
            (fun j => nextIter S (st.points.getLastD SLTT.d0) (j + 1)) ∧
      (∀ j : ℕ, j < m →
        nextIter S (st.points.getLastD SLTT.d0) (j + 1)
            ≠ st.points.headD SLTT.d0 ∧
        (nextIter S (st.points.getLastD SLTT.d0) (j + 1)).2.2 ≠ 0) ∧
      (m < steps.toNat →
        nextIter S (st.points.getLastD SLTT.d0) (m + 1)
            = st.points.headD SLTT.d0 ∨
        (nextIter S (st.points.getLastD SLTT.d0) (m + 1)).2.2 = 0) := by
  have hflow : SLTT.flow S st steps = SLTT.flowPos S st steps.toNat := by
    simp only [SLTT.flow]
    rw [if_pos hs]
  rw [hflow]
  exact c8_aux S steps.toNat st hne

/-- C8 witness: the characterization applied to the trajectory from
`(1/2, 0)` with direction `(5, 6)` on the square torus, flowed 3 steps. -/
theorem c8_witness :
    ∃ m : ℕ, m ≤ (3 : ℤ).toNat ∧
      (SLTT.flow (torusTS 5 6)
          (SLTT.init torusG (torusTS 5 6) ⟨0, (1/2, 0), (5, 6)⟩) 3).points
        = (SLTT.init torusG (torusTS 5 6) ⟨0, (1/2, 0), (5, 6)⟩).points
          ++ (List.range m).map
            (fun j => nextIter (torusTS 5 6)
              ((SLTT.init torusG (torusTS 5 6)
                ⟨0, (1/2, 0), (5, 6)⟩).points.getLastD SLTT.d0) (j + 1)) ∧
      (∀ j : ℕ, j < m →
        nextIter (torusTS 5 6)
            ((SLTT.init torusG (torusTS 5 6)
              ⟨0, (1/2, 0), (5, 6)⟩).points.getLastD SLTT.d0) (j + 1)
          ≠ (SLTT.init torusG (torusTS 5 6)
              ⟨0, (1/2, 0), (5, 6)⟩).points.headD SLTT.d0 ∧
        (nextIter (torusTS 5 6)
            ((SLTT.init torusG (torusTS 5 6)
              ⟨0, (1/2, 0), (5, 6)⟩).points.getLastD SLTT.d0) (j + 1)).2.2
          ≠ 0) ∧
      (m < (3 : ℤ).toNat →
        nextIter (torusTS 5 6)
            ((SLTT.init torusG (torusTS 5 6)
              ⟨0, (1/2, 0), (5, 6)⟩).points.getLastD SLTT.d0) (m + 1)
          = (SLTT.init torusG (torusTS 5 6)
              ⟨0, (1/2, 0), (5, 6)⟩).points.headD SLTT.d0 ∨
        (nextIter (torusTS 5 6)
            ((SLTT.init torusG (torusTS 5 6)
              ⟨0, (1/2, 0), (5, 6)⟩).points.getLastD SLTT.d0) (m + 1)).2.2
          = 0) :=
  c8_flow_positive_characterization (torusTS 5 6)
    (SLTT.init torusG (torusTS 5 6) ⟨0, (1/2, 0), (5, 6)⟩) 3 (by norm_num)
    (by norm_num [SLTT.init, mkSegFrom, torusG, torusFwd, torusInv, tfwd,
      trebase, tclassify, axisTime, minOpt, vtxIdx, min_def,
      get_linearity_coeff, torusTS])

/-- C1 (counterexample): on the square torus with initial tangent vector
`((1/2, 0), (5, 6))` and one flow step applied to each trajectory type,
`coding()` of the segment-based trajectory is
`[(0, 0), (0, 1), (0, 2)]` (it records the edges crossings are *leaving*
through, plus the initial and final boundary crossings), while the
`(label, edge)` projection of the translation trajectory's triples is
`[(0, 0), (0, 3)]` (each triple records the edge its segment *enters*
through); the ordered sequences differ. -/
theorem c1_counterexample :
    SLT.coding torusG
        (SLT.flow torusG (SLT.init torusG ⟨0, (1/2, 0), (5, 6)⟩) 1)
      ≠ ((SLTT.flow (torusTS 5 6)
          (SLTT.init torusG (torusTS 5 6) ⟨0, (1/2, 0), (5, 6)⟩) 1).points.map
            (fun t => (t.1, t.2.1))) := by
  norm_num [SLT.coding, SLT.flow, SLT.flowPos, SLT.init, SLT.is_closed,
    SLT.forwardOf, SLT.backwardOf, SLT.dfltSeg, differs_by_scaling,
    mkSegFrom, torusG, torusFwd, torusInv, tfwd, trebase, tclassify,
    axisTime, minOpt, is_based_at_singularity, vtxIdx, min_def, edgeOfPos,
    SLTT.flow, SLTT.flowPos, SLTT.init, nextT, torusTS, tforward_image,
    get_linearity_coeff, SLTT.d0, decide_eq_true_eq]

/-
C1: refinement between the two trajectory types on the square torus.
Throughout, the direction is `(a, b)` with `a, b > 0`, and the bottom
boundary for that direction consists of edge 0 (entered at offset
`x ∈ [0, b)` in iet units, at the point `(x/b, 0)`) and edge 3 (entered at
offset `x ∈ (0, a)`, at the point `(0, 1 - x/a)`).
-/

/-- Entry point of the square corresponding to a bottom-edge iet offset. -/
def pointOfBot (a b : ℚ) (e : ℕ) (x : ℚ) : ℚ × ℚ :=
  if e = 3 then (0, 1 - x / a) else (x / b, 0)

/-- The canonical tangent vector entering the square at a bottom-edge iet
position, with direction `(a, b)`. -/
def entryTV (a b : ℚ) (e : ℕ) (x : ℚ) : TV :=
  ⟨0, pointOfBot a b e x, (a, b)⟩

/-- Exit point of the square corresponding to a top-edge iet position. -/
def topPoint (a b : ℚ) (ex : ℕ × ℚ) : ℚ × ℚ :=
  if ex.1 = 1 then (1, 1 - ex.2 / a) else (ex.2 / b, 1)

/-- The triples reachable by the translation trajectory flowing in
direction `(a, b)`, `a, b > 0`, on the square torus: polygon 0, entry edge
0 with offset in `[0, b)` or entry edge 3 with offset in `(0, a)` (offset
0 on edge 3 would be the corner `(0, 1)`, which re-bases to `(0, 0)` on
edge 0). -/
def validT (a b : ℚ) (t : Triple) : Prop :=
  t.1 = 0 ∧ ((t.2.1 = 0 ∧ 0 ≤ t.2.2 ∧ t.2.2 < b) ∨
    (t.2.1 = 3 ∧ 0 < t.2.2 ∧ t.2.2 < a))

/-- The edge index recorded in a boundary position (vertex `k` counts as
edge `k`, matching the source's `__init__` of the translation
trajectory). -/
def entryIdxOf : PtPos → ℕ
  | PtPos.edgeInt e => e
  | PtPos.vtx k => k
  | PtPos.interior => 0

/-- `tfwd` in a positive direction, written with an explicit minimum. -/
theorem tfwd_pos (a b : ℚ) (ha : 0 < a) (hb : 0 < b) (p : ℚ × ℚ) :
    tfwd p (a, b) = (p.1 + min ((1 - p.1) / a) ((1 - p.2) / b) * a,
      p.2 + min ((1 - p.1) / a) ((1 - p.2) / b) * b) := by
  simp only [tfwd, axisTime]
  rw [if_pos ha, if_pos hb]
  simp only [minOpt]

/-- `tfwd` in a negative direction, written with an explicit minimum. -/
theorem tfwd_neg (a b : ℚ) (ha : 0 < a) (hb : 0 < b) (p : ℚ × ℚ) :
    tfwd p (-a, -b) = (p.1 + min (p.1 / a) (p.2 / b) * (-a),
      p.2 + min (p.1 / a) (p.2 / b) * (-b)) := by
  simp only [tfwd, axisTime]
  rw [if_neg (by linarith), if_pos (by linarith),
    if_neg (by linarith), if_pos (by linarith)]
  simp only [minOpt, neg_neg]

/-- Flowing forward to the boundary and then backward from there lands at
the same point as flowing backward directly (the chord of the ray through
`p` has well-defined endpoints). -/
theorem tfwd_fwd_then_back (a b : ℚ) (ha : 0 < a) (hb : 0 < b) (p : ℚ × ℚ) :
    tfwd (tfwd p (a, b)) (-a, -b) = tfwd p (-a, -b) := by
  have ha0 : a ≠ 0 := ne_of_gt ha
  have hb0 : b ≠ 0 := ne_of_gt hb
  rw [tfwd_pos a b ha hb, tfwd_neg a b ha hb, tfwd_neg a b ha hb]
  have e1 : (p.1 + min ((1 - p.1) / a) ((1 - p.2) / b) * a) / a
      = p.1 / a + min ((1 - p.1) / a) ((1 - p.2) / b) := by
    field_simp
  have e2 : (p.2 + min ((1 - p.1) / a) ((1 - p.2) / b) * b) / b
      = p.2 / b + min ((1 - p.1) / a) ((1 - p.2) / b) := by
    field_simp
  rw [e1, e2, min_add_add_right]
  refine Prod.ext ?_ ?_ <;> dsimp only <;> ring

/-- Flowing backward to the boundary and then forward from there lands at
the same point as flowing forward directly. -/
theorem tfwd_back_then_fwd (a b : ℚ) (ha : 0 < a) (hb : 0 < b) (p : ℚ × ℚ) :
    tfwd (tfwd p (-a, -b)) (a, b) = tfwd p (a, b) := by
  have ha0 : a ≠ 0 := ne_of_gt ha
  have hb0 : b ≠ 0 := ne_of_gt hb
  rw [tfwd_neg a b ha hb, tfwd_pos a b ha hb, tfwd_pos a b ha hb]
  have e1 : (1 - (p.1 + min (p.1 / a) (p.2 / b) * (-a))) / a
      = (1 - p.1) / a + min (p.1 / a) (p.2 / b) := by
    field_simp
    ring
  have e2 : (1 - (p.2 + min (p.1 / a) (p.2 / b) * (-b))) / b
      = (1 - p.2) / b + min (p.1 / a) (p.2 / b) := by
    field_simp
    ring
  rw [e1, e2, min_add_add_right]
  refine Prod.ext ?_ ?_ <;> dsimp only <;> ring

/-- `validT` written on components. -/
theorem validT_def (a b : ℚ) (p e : ℕ) (x : ℚ) :
    validT a b (p, e, x) ↔ p = 0 ∧
      (e = 0 ∧ 0 ≤ x ∧ x < b ∨ e = 3 ∧ 0 < x ∧ x < a) := Iff.rfl

/-- From a valid bottom position, the iet forward image is a top position:
edge 1 with offset in `[0, a)`, or edge 2 with offset in `(0, b)`. -/
theorem fimg_cases (a b : ℚ) (ha : 0 < a) (hb : 0 < b) (e : ℕ) (x : ℚ)
    (hv : validT a b (0, e, x)) :
    ((tforward_image a b e x).1 = 1 ∧ 0 ≤ (tforward_image a b e x).2 ∧
      (tforward_image a b e x).2 < a) ∨
    ((tforward_image a b e x).1 = 2 ∧ 0 < (tforward_image a b e x).2 ∧
      (tforward_image a b e x).2 < b) := by
  rw [validT_def] at hv
  obtain ⟨-, hv⟩ := hv
  simp only [tforward_image]
  rcases hv with ⟨he, hx0, hxb⟩ | ⟨he, hx0, hxa⟩
  · subst he
    rw [show (if (0:ℕ) = 3 then x - a else x) = x by norm_num]
    by_cases hc : x < b - a
    · rw [if_pos hc]
      right
      refine ⟨rfl, ?_, ?_⟩ <;> dsimp only <;> linarith
    · rw [if_neg hc]
      left
      refine ⟨rfl, ?_, ?_⟩ <;> dsimp only <;> linarith
  · subst he
    rw [show (if (3:ℕ) = 3 then x - a else x) = x - a by norm_num]
    by_cases hc : x - a < b - a
    · rw [if_pos hc]
      right
      refine ⟨rfl, ?_, ?_⟩ <;> dsimp only <;> linarith
    · rw [if_neg hc]
      left
      refine ⟨rfl, ?_, ?_⟩ <;> dsimp only <;> linarith

/-- `pointOfBot` on edge 0. -/
theorem pointOfBot_e0 (a b x : ℚ) : pointOfBot a b 0 x = (x / b, 0) := by
  norm_num [pointOfBot]

/-- `pointOfBot` on edge 3. -/
theorem pointOfBot_e3 (a b x : ℚ) : pointOfBot a b 3 x = (0, 1 - x / a) := by
  norm_num [pointOfBot]

/-- `topPoint` on edge 1. -/
theorem topPoint_e1 (a b u : ℚ) : topPoint a b (1, u) = (1, 1 - u / a) := by
  norm_num [topPoint]

/-- `topPoint` on edge 2. -/
theorem topPoint_e2 (a b u : ℚ) : topPoint a b (2, u) = (u / b, 1) := by
  norm_num [topPoint]

/-- The iet forward image from edge 0. -/
theorem tfimg_e0 (a b x : ℚ) : tforward_image a b 0 x
    = if x < b - a then (2, x + a) else (1, x - (b - a)) := by
  norm_num [tforward_image]

/-- The iet forward image from edge 3, with the offset normalized. -/
theorem tfimg_e3 (a b x : ℚ) : tforward_image a b 3 x
    = if x < b then (2, x) else (1, x - b) := by
  norm_num [tforward_image]

/-- `torusFwd` on an explicit tangent vector. -/
theorem torusFwd_mk (l : ℕ) (p d : ℚ × ℚ) :
    torusFwd ⟨l, p, d⟩ = ⟨0, tfwd p d, (-d.1, -d.2)⟩ := rfl

/-- `torusInv` on an explicit tangent vector. -/
theorem torusInv_mk (l : ℕ) (p d : ℚ × ℚ) :
    torusInv ⟨l, p, d⟩ = ⟨0, trebase p (-d.1, -d.2), (-d.1, -d.2)⟩ := rfl

/-- The geometric forward projection agrees with the iet forward image on
valid entry positions: `forward_to_polygon_boundary` of the entry tangent
vector is based at the exit point described by `tforward_image`, with the
reversed direction. -/
theorem torusFwd_entry (a b : ℚ) (ha : 0 < a) (hb : 0 < b) (e : ℕ) (x : ℚ)
    (hv : validT a b (0, e, x)) :
    torusFwd (entryTV a b e x)
      = ⟨0, topPoint a b (tforward_image a b e x), (-a, -b)⟩ := by
  have ha0 : a ≠ 0 := ne_of_gt ha
  have hb0 : b ≠ 0 := ne_of_gt hb
  rw [validT_def] at hv
  obtain ⟨-, hv⟩ := hv
  rcases hv with ⟨he, hx0, hxb⟩ | ⟨he, hx0, hxa⟩
  · subst he
    rw [entryTV, pointOfBot_e0, tfimg_e0, torusFwd_mk, tfwd_pos a b ha hb]
    dsimp only
    by_cases hc : x < b - a
    · rw [if_pos hc, topPoint_e2]
      have hle : (1 - (0:ℚ)) / b ≤ (1 - x / b) / a := by
        rw [div_le_div_iff hb ha]
        have key : (1 - x / b) * b = b - x := by field_simp
        rw [key]
        linarith
      rw [min_eq_right hle]
      refine congrArg (fun q => TV.mk 0 q (-a, -b)) (Prod.ext ?_ ?_) <;>
        dsimp only <;> (field_simp; try ring)
    · rw [if_neg hc, topPoint_e1]
      push_neg at hc
      have hle : (1 - x / b) / a ≤ (1 - (0:ℚ)) / b := by
        rw [div_le_div_iff ha hb]
        have key : (1 - x / b) * b = b - x := by field_simp
        rw [key]
        linarith
      rw [min_eq_left hle]
      refine congrArg (fun q => TV.mk 0 q (-a, -b)) (Prod.ext ?_ ?_) <;>
        dsimp only <;> (field_simp; try ring)
  · subst he
    rw [entryTV, pointOfBot_e3, tfimg_e3, torusFwd_mk, tfwd_pos a b ha hb]
    dsimp only
    by_cases hc : x < b
    · rw [if_pos hc, topPoint_e2]
      have hle : (1 - (1 - x / a)) / b ≤ (1 - (0:ℚ)) / a := by
        rw [div_le_div_iff hb ha]
        have key : (1 - (1 - x / a)) * a = x := by field_simp
        rw [key]
        linarith
      rw [min_eq_right hle]
      refine congrArg (fun q => TV.mk 0 q (-a, -b)) (Prod.ext ?_ ?_) <;>
        dsimp only <;> (field_simp; try ring)
    · rw [if_neg hc, topPoint_e1]
      push_neg at hc
      have hle : (1 - (0:ℚ)) / a ≤ (1 - (1 - x / a)) / b := by
        rw [div_le_div_iff ha hb]
        have key : (1 - (1 - x / a)) * a = x := by field_simp
        rw [key]
        linarith
      rw [min_eq_left hle]
      refine congrArg (fun q => TV.mk 0 q (-a, -b)) (Prod.ext ?_ ?_) <;>
        dsimp only <;> (field_simp; try ring)

/-- Classification of an interior point of the right edge. -/
theorem tclassify_edge1 (y : ℚ) (h0 : 0 < y) (h1 : y < 1) :
    tclassify (1, y) = PtPos.edgeInt 1 := by
  simp only [tclassify]
  dsimp only
  rw [if_neg (by rintro ⟨-, h | h⟩ <;> linarith)]
  rw [if_neg (by linarith)]
  rw [if_pos trivial]

/-- Classification of an interior point of the top edge. -/
theorem tclassify_edge2 (x : ℚ) (h0 : 0 < x) (h1 : x < 1) :
    tclassify (x, 1) = PtPos.edgeInt 2 := by
  simp only [tclassify]
  dsimp only
  rw [if_neg (by rintro ⟨h | h, -⟩ <;> linarith)]
  rw [if_neg (by norm_num)]
  rw [if_neg (by linarith)]
  rw [if_pos trivial]

/-- Classification of an interior point of the bottom edge. -/
theorem tclassify_edge0 (x : ℚ) (h0 : 0 < x) (h1 : x < 1) :
    tclassify (x, 0) = PtPos.edgeInt 0 := by
  simp only [tclassify]
  dsimp only
  rw [if_neg (by rintro ⟨h | h, -⟩ <;> linarith)]
  rw [if_pos trivial]

/-- Classification of an interior point of the left edge. -/
theorem tclassify_edge3 (y : ℚ) (h0 : 0 < y) (h1 : y < 1) :
    tclassify (0, y) = PtPos.edgeInt 3 := by
  simp only [tclassify]
  rw [if_neg (by rintro ⟨-, h | h⟩ <;> linarith)]
  rw [if_neg (by linarith)]
  rw [if_neg (by norm_num)]
  rw [if_neg (by linarith)]
  rw [if_pos trivial]

/-- The corner `(1, 1)` is vertex 2. -/
theorem tclassify_corner2 : tclassify (1, 1) = PtPos.vtx 2 := by
  norm_num [tclassify, vtxIdx, Prod.ext_iff]

/-- The corner `(0, 0)` is vertex 0. -/
theorem tclassify_corner0 : tclassify (0, 0) = PtPos.vtx 0 := by
  norm_num [tclassify, vtxIdx]

/-- Re-basing from the interior of the right edge, direction pointing out
to the right: translate to the left edge. -/
theorem trebase_edge1 (a b : ℚ) (ha : 0 < a) (y : ℚ) (h0 : 0 < y)
    (h1 : y < 1) : trebase (1, y) (a, b) = (0, y) := by
  simp only [trebase]
  rw [if_neg (by rintro ⟨-, h | h⟩ <;> linarith)]
  rw [if_neg (by rintro ⟨h, -⟩; linarith)]
  rw [if_neg (by rintro ⟨h, -⟩; linarith)]
  rw [if_neg (by rintro ⟨h, -⟩; norm_num at h)]
  rw [if_pos ⟨trivial, ha⟩]

/-- Re-basing from the interior of the top edge, direction pointing out
upward: translate to the bottom edge. -/
theorem trebase_edge2 (a b : ℚ) (hb : 0 < b) (x : ℚ) (h0 : 0 < x)
    (h1 : x < 1) : trebase (x, 1) (a, b) = (x, 0) := by
  simp only [trebase]
  rw [if_neg (by rintro ⟨h | h, -⟩ <;> linarith)]
  rw [if_neg (by rintro ⟨h, -⟩; norm_num at h)]
  rw [if_pos ⟨trivial, hb⟩]

/-- The exit tangent vector is re-based by `invert` to the entry tangent
vector of the next triple, when the exit is through the interior of
edge 1. -/
theorem torusInv_exit_e1 (a b : ℚ) (ha : 0 < a) (hb : 0 < b) (u : ℚ)
    (h0 : 0 < u) (hu : u < a) :
    torusInv ⟨0, topPoint a b (1, u), (-a, -b)⟩ = entryTV a b 3 u := by
  rw [topPoint_e1, torusInv_mk]
  dsimp only
  rw [neg_neg, neg_neg]
  rw [trebase_edge1 a b ha (1 - u / a)
    (by
      have : u / a < 1 := (div_lt_one ha).mpr hu
      linarith)
    (by
      have : 0 < u / a := div_pos h0 ha
      linarith)]
  rw [entryTV, pointOfBot_e3]

/-- The exit tangent vector is re-based by `invert` to the entry tangent
vector of the next triple, when the exit is through the interior of
edge 2. -/
theorem torusInv_exit_e2 (a b : ℚ) (ha : 0 < a) (hb : 0 < b) (u : ℚ)
    (h0 : 0 < u) (hu : u < b) :
    torusInv ⟨0, topPoint a b (2, u), (-a, -b)⟩ = entryTV a b 0 u := by
  rw [topPoint_e2, torusInv_mk]
  dsimp only
  rw [neg_neg, neg_neg]
  rw [trebase_edge2 a b hb (u / b) (div_pos h0 hb) ((div_lt_one hb).mpr hu)]
  rw [entryTV, pointOfBot_e0]

/-- Entry points lie on the backward boundary: flowing backward from them
moves nothing. -/
theorem entryPoint_back_fixed (a b : ℚ) (ha : 0 < a) (hb : 0 < b)
    (e : ℕ) (x : ℚ) (hv : validT a b (0, e, x)) :
    tfwd (pointOfBot a b e x) (-a, -b) = pointOfBot a b e x := by
  rw [validT_def] at hv
  obtain ⟨-, hv⟩ := hv
  rw [tfwd_neg a b ha hb]
  rcases hv with ⟨he, hx0, hxb⟩ | ⟨he, hx0, hxa⟩
  · subst he
    rw [pointOfBot_e0]
    dsimp only
    rw [zero_div]
    rw [min_eq_right
      (div_nonneg (div_nonneg hx0 (le_of_lt hb)) (le_of_lt ha))]
    refine Prod.ext ?_ ?_ <;> dsimp only <;> ring
  · subst he
    rw [pointOfBot_e3]
    dsimp only
    rw [zero_div]
    have h1 : x / a < 1 := (div_lt_one ha).mpr hxa
    rw [min_eq_left (div_nonneg (by linarith) (le_of_lt hb))]
    refine Prod.ext ?_ ?_ <;> dsimp only <;> ring

/-- Flowing forward from the exit tangent vector recovers the entry
tangent vector (`forward_to_polygon_boundary` is involutive on the chord's
two boundary vectors). -/
theorem torusFwd_top (a b : ℚ) (ha : 0 < a) (hb : 0 < b) (e : ℕ) (x : ℚ)
    (hv : validT a b (0, e, x)) :
    torusFwd ⟨0, topPoint a b (tforward_image a b e x), (-a, -b)⟩
      = entryTV a b e x := by
  rw [torusFwd_mk]
  dsimp only
  have hq : topPoint a b (tforward_image a b e x)
      = tfwd (pointOfBot a b e x) (a, b) := by
    have h2 := congrArg TV.pt (torusFwd_entry a b ha hb e x hv)
    exact h2.symm
  rw [hq, tfwd_fwd_then_back a b ha hb,
    entryPoint_back_fixed a b ha hb e x hv, neg_neg, neg_neg]
  rfl

/-- Classification of a nonzero-offset entry point. -/
theorem tclassify_entry_pos (a b : ℚ) (ha : 0 < a) (hb : 0 < b)
    (e : ℕ) (x : ℚ) (hv : validT a b (0, e, x)) (hx : x ≠ 0) :
    tclassify (pointOfBot a b e x) = PtPos.edgeInt e := by
  rw [validT_def] at hv
  obtain ⟨-, hv⟩ := hv
  rcases hv with ⟨he, hx0, hxb⟩ | ⟨he, hx0, hxa⟩
  · subst he
    rw [pointOfBot_e0]
    exact tclassify_edge0 (x / b) (div_pos (lt_of_le_of_ne hx0 (Ne.symm hx)) hb)
      ((div_lt_one hb).mpr hxb)
  · subst he
    rw [pointOfBot_e3]
    have h1 : x / a < 1 := (div_lt_one ha).mpr hxa
    have h2 : 0 < x / a := div_pos hx0 ha
    exact tclassify_edge3 (1 - x / a) (by linarith) (by linarith)

/-- Classification of the zero-offset entry point: the corner `(0, 0)`
(valid zero-offset positions are on edge 0). -/
theorem tclassify_entry_zero (a b : ℚ) (ha : 0 < a) (hb : 0 < b)
    (e : ℕ) (hv : validT a b (0, e, 0)) :
    pointOfBot a b e 0 = (0, 0) ∧ tclassify (pointOfBot a b e 0) = PtPos.vtx 0
      ∧ e = 0 := by
  rw [validT_def] at hv
  obtain ⟨-, hv⟩ := hv
  rcases hv with ⟨he, -, -⟩ | ⟨he, hx0, -⟩
  · subst he
    have hp : pointOfBot a b 0 0 = (0, 0) := by
      rw [pointOfBot_e0, zero_div]
    exact ⟨hp, by rw [hp]; exact tclassify_corner0, rfl⟩
  · exact absurd hx0 (lt_irrefl 0)

/-- Valid entry positions are determined by their points. -/
theorem pointOfBot_injective (a b : ℚ) (ha : 0 < a) (hb : 0 < b)
    (e : ℕ) (x : ℚ) (f : ℕ) (y : ℚ)
    (hv1 : validT a b (0, e, x)) (hv2 : validT a b (0, f, y))
    (h : pointOfBot a b e x = pointOfBot a b f y) : e = f ∧ x = y := by
  have ha0 : a ≠ 0 := ne_of_gt ha
  have hb0 : b ≠ 0 := ne_of_gt hb
  rw [validT_def] at hv1 hv2
  obtain ⟨-, hv1⟩ := hv1
  obtain ⟨-, hv2⟩ := hv2
  rcases hv1 with ⟨he, hx0, hxb⟩ | ⟨he, hx0, hxa⟩ <;>
    rcases hv2 with ⟨hf, hy0, hyb⟩ | ⟨hf, hy0, hya⟩ <;>
      subst he <;> subst hf
  · rw [pointOfBot_e0, pointOfBot_e0, Prod.ext_iff] at h
    obtain ⟨h1, -⟩ := h
    refine ⟨rfl, ?_⟩
    dsimp only at h1
    field_simp at h1
    exact h1
  · rw [pointOfBot_e0, pointOfBot_e3, Prod.ext_iff] at h
    obtain ⟨-, h2⟩ := h
    dsimp only at h2
    exfalso
    have : y / a < 1 := (div_lt_one ha).mpr hya
    have h3 : (0:ℚ) = 1 - y / a := h2
    linarith
  · rw [pointOfBot_e3, pointOfBot_e0, Prod.ext_iff] at h
    obtain ⟨-, h2⟩ := h
    dsimp only at h2
    exfalso
    have : x / a < 1 := (div_lt_one ha).mpr hxa
    have h3 : (1 : ℚ) - x / a = 0 := h2
    linarith
  · rw [pointOfBot_e3, pointOfBot_e3, Prod.ext_iff] at h
    obtain ⟨-, h2⟩ := h
    dsimp only at h2
    refine ⟨rfl, ?_⟩
    have h3 : x / a = y / a := by linarith
    field_simp at h3
    exact h3

/-- `differs_by_scaling` between two entry tangent vectors holds exactly
when they are the same entry position. -/
theorem differs_entry (a b : ℚ) (ha : 0 < a) (hb : 0 < b)
    (e : ℕ) (x : ℚ) (f : ℕ) (y : ℚ)
    (hv1 : validT a b (0, e, x)) (hv2 : validT a b (0, f, y)) :
    differs_by_scaling (entryTV a b e x) (entryTV a b f y) = true
      ↔ (e = f ∧ x = y) := by
  rw [differs_by_scaling, decide_eq_true_eq]
  constructor
  · rintro ⟨-, hpt, -, -⟩
    exact pointOfBot_injective a b ha hb e x f y hv1 hv2 hpt
  · rintro ⟨he, hx⟩
    subst he
    subst hx
    refine ⟨rfl, rfl, by ring, ?_⟩
    dsimp only [entryTV]
    nlinarith

/-- `is_based_at_singularity` on the torus, via `tclassify`. -/
theorem sing_of_classify (l : ℕ) (p d : ℚ × ℚ) :
    is_based_at_singularity torusG ⟨l, p, d⟩
      = match tclassify p with
        | PtPos.vtx _ => true
        | _ => false := rfl

/-- The segment built from an entry tangent vector: its start is the entry
vector itself and its end is the exit vector of the chord. -/
theorem mkSegFrom_entry (a b : ℚ) (ha : 0 < a) (hb : 0 < b) (e : ℕ) (x : ℚ)
    (hv : validT a b (0, e, x)) :
    mkSegFrom torusG (entryTV a b e x)
      = ⟨entryTV a b e x,
         ⟨0, topPoint a b (tforward_image a b e x), (-a, -b)⟩⟩ := by
  simp only [mkSegFrom]
  rw [show torusG.fwd = torusFwd from rfl]
  rw [torusFwd_entry a b ha hb e x hv, torusFwd_top a b ha hb e x hv]

/-- `_setup_forward` computed from the last stored segment, when that
segment comes from a valid entry position: `None` exactly when the iet
offset of the exit is zero (the exit is the corner), otherwise the entry
vector of the next triple. -/
theorem forwardOf_corr (a b : ℚ) (ha : 0 < a) (hb : 0 < b)
    (segs : List SegmentInPolygon) (e : ℕ) (x : ℚ)
    (hv : validT a b (0, e, x))
    (hlast : segs.getLastD SLT.dfltSeg = mkSegFrom torusG (entryTV a b e x)) :
    SLT.forwardOf torusG segs
      = if (tforward_image a b e x).2 = 0 then none
        else some (entryTV a b (((tforward_image a b e x).1 + 2) % 4)
          ((tforward_image a b e x).2)) := by
  have hend : (segs.getLastD SLT.dfltSeg).endv
      = ⟨0, topPoint a b (tforward_image a b e x), (-a, -b)⟩ := by
    rw [hlast, mkSegFrom_entry a b ha hb e x hv]
  simp only [SLT.forwardOf]
  rw [hend]
  rcases fimg_cases a b ha hb e x hv with ⟨h1, h0u, hua⟩ | ⟨h2, h0u, hub⟩
  · by_cases hz : (tforward_image a b e x).2 = 0
    · rw [if_pos hz]
      have hfi : tforward_image a b e x = (1, 0) := Prod.ext h1 hz
      rw [hfi, topPoint_e1, zero_div, sub_zero]
      rw [sing_of_classify, tclassify_corner2]
      rfl
    · rw [if_neg hz]
      have h0u' : 0 < (tforward_image a b e x).2 :=
        lt_of_le_of_ne h0u (Ne.symm hz)
      have hfi : tforward_image a b e x
          = (1, (tforward_image a b e x).2) := Prod.ext h1 rfl
      rw [hfi]
      dsimp only
      have hy1 : 0 < 1 - (tforward_image a b e x).2 / a := by
        have : (tforward_image a b e x).2 / a < 1 := (div_lt_one ha).mpr hua
        linarith
      have hy2 : 1 - (tforward_image a b e x).2 / a < 1 := by
        have : 0 < (tforward_image a b e x).2 / a := div_pos h0u' ha
        linarith
      rw [show is_based_at_singularity torusG
            ⟨0, topPoint a b (1, (tforward_image a b e x).2), (-a, -b)⟩
          = false from by
        rw [topPoint_e1, sing_of_classify,
          tclassify_edge1 _ hy1 hy2]]
      rw [if_neg (by simp)]
      rw [show torusG.inv = torusInv from rfl]
      rw [torusInv_exit_e1 a b ha hb _ h0u' hua]
  · have hz : (tforward_image a b e x).2 ≠ 0 := ne_of_gt h0u
    rw [if_neg hz]
    have hfi : tforward_image a b e x
        = (2, (tforward_image a b e x).2) := Prod.ext h2 rfl
    rw [hfi]
    dsimp only
    have hy1 : 0 < (tforward_image a b e x).2 / b := div_pos h0u hb
    have hy2 : (tforward_image a b e x).2 / b < 1 := (div_lt_one hb).mpr hub
    rw [show is_based_at_singularity torusG
          ⟨0, topPoint a b (2, (tforward_image a b e x).2), (-a, -b)⟩
        = false from by
      rw [topPoint_e2, sing_of_classify, tclassify_edge2 _ hy1 hy2]]
    rw [if_neg (by simp)]
    rw [show torusG.inv = torusInv from rfl]
    rw [torusInv_exit_e2 a b ha hb _ h0u hub]

/-- The head elements of two `Forall₂`-related lists are related. -/
theorem forall2_headD {α β : Type} {R : α → β → Prop} {l1 : List α}
    {l2 : List β} (h : List.Forall₂ R l1 l2) (hne : l2 ≠ []) (d1 : α)
    (d2 : β) : R (l1.headD d1) (l2.headD d2) := by
  cases h with
  | nil => exact absurd rfl hne
  | cons hab htail => exact hab

/-- The last elements of two `Forall₂`-related lists are related. -/
theorem forall2_getLastD {α β : Type} {R : α → β → Prop} :
    ∀ {l1 : List α} {l2 : List β}, List.Forall₂ R l1 l2 → l2 ≠ [] →
      ∀ (d1 : α) (d2 : β), R (l1.getLastD d1) (l2.getLastD d2) := by
  intro l1 l2 h
  induction h with
  | nil =>
    intro hne
    exact absurd rfl hne
  | @cons x y l1' l2' hab htail ih =>
    intro hne d1 d2
    cases l2' with
    | nil =>
      cases htail
      exact hab
    | cons y2 l2'' =>
      rw [List.getLastD_cons, List.getLastD_cons]
      exact ih (by simp) x y

/-- The simulation relation between a stored segment and a stored triple:
the triple is a valid entry position and the segment is the one built from
its entry tangent vector. -/
def corr (a b : ℚ) (s : SegmentInPolygon) (t : Triple) : Prop :=
  validT a b t ∧ s = mkSegFrom torusG (entryTV a b t.2.1 t.2.2)

/-- The simulation invariant between the two trajectory representations on
the square torus: the triple list is nonempty, segments and triples
correspond pointwise, and the cached `_forward` vector is the one
recomputed from the segments. -/
def InvC1 (a b : ℚ) (st1 : SLT.State) (st2 : SLTT.State) : Prop :=
  st2.points ≠ [] ∧
  List.Forall₂ (corr a b) st1.segs st2.points ∧
  st1.fwdv = SLT.forwardOf torusG st1.segs

/-- `_next` on the square torus, structurally. -/
theorem nextT_torus (a b : ℚ) (p e : ℕ) (x : ℚ) :
    nextT (torusTS a b) (p, e, x)
      = (p, ((tforward_image a b e x).1 + 2) % 4,
          (tforward_image a b e x).2) := rfl

/-- The next triple after a valid one is valid when its offset is not
zero. -/
theorem validT_next (a b : ℚ) (ha : 0 < a) (hb : 0 < b) (e : ℕ) (x : ℚ)
    (hv : validT a b (0, e, x)) (hz : (tforward_image a b e x).2 ≠ 0) :
    validT a b (0, ((tforward_image a b e x).1 + 2) % 4,
      (tforward_image a b e x).2) := by
  rcases fimg_cases a b ha hb e x hv with ⟨h1, h0u, hua⟩ | ⟨h2, h0u, hub⟩
  · rw [h1, validT_def]
    exact ⟨rfl, Or.inr ⟨by norm_num, lt_of_le_of_ne h0u (Ne.symm hz), hua⟩⟩
  · rw [h2, validT_def]
    exact ⟨rfl, Or.inl ⟨by norm_num, le_of_lt h0u, hub⟩⟩

/-- Under the simulation invariant, `is_closed()` of the segment-based
trajectory and of the translation trajectory agree. -/
theorem closed_corr (a b : ℚ) (ha : 0 < a) (hb : 0 < b)
    (st1 : SLT.State) (st2 : SLTT.State) (hI : InvC1 a b st1 st2) :
    SLT.is_closed st1 = SLTT.is_closed (torusTS a b) st2 := by
  obtain ⟨hne, hF, hfwd⟩ := hI
  obtain ⟨hlastV, hlastS⟩ := forall2_getLastD hF hne SLT.dfltSeg SLTT.d0
  obtain ⟨e, x, htl⟩ : ∃ e x, st2.points.getLastD SLTT.d0 = (0, e, x) :=
    ⟨_, _, Prod.ext hlastV.1 rfl⟩
  have hvx : validT a b (0, e, x) := htl ▸ hlastV
  obtain ⟨hheadV, hheadS⟩ := forall2_headD hF hne SLT.dfltSeg SLTT.d0
  obtain ⟨f, y, hth⟩ : ∃ f y, st2.points.headD SLTT.d0 = (0, f, y) :=
    ⟨_, _, Prod.ext hheadV.1 rfl⟩
  have hvy : validT a b (0, f, y) := hth ▸ hheadV
  have hfwd_if : st1.fwdv = if (tforward_image a b e x).2 = 0 then none
      else some (entryTV a b (((tforward_image a b e x).1 + 2) % 4)
        ((tforward_image a b e x).2)) := by
    rw [hfwd]
    refine forwardOf_corr a b ha hb _ e x hvx ?_
    rw [htl] at hlastS
    exact hlastS
  by_cases hz : (tforward_image a b e x).2 = 0
  · have hfi : tforward_image a b e x = (1, 0) := by
      rcases fimg_cases a b ha hb e x hvx with ⟨h1, -, -⟩ | ⟨-, h0u, -⟩
      · exact Prod.ext h1 hz
      · exact absurd hz (ne_of_gt h0u)
    have hfwdn : st1.fwdv = none := by rw [hfwd_if, if_pos hz]
    have hL : SLT.is_closed st1 = false := by
      simp only [SLT.is_closed, hfwdn]
    rw [hL, SLTT.is_closed, htl, hth, nextT_torus, hfi]
    symm
    rw [decide_eq_false_iff_not]
    rw [validT_def] at hvy
    obtain ⟨-, hvy⟩ := hvy
    rcases hvy with ⟨hf, -, -⟩ | ⟨hf, hy0, -⟩
    · subst hf
      intro hcon
      rw [Prod.ext_iff] at hcon
      obtain ⟨-, hcon⟩ := hcon
      rw [Prod.ext_iff] at hcon
      obtain ⟨h3, -⟩ := hcon
      norm_num at h3
    · subst hf
      intro hcon
      rw [Prod.ext_iff] at hcon
      obtain ⟨-, hcon⟩ := hcon
      rw [Prod.ext_iff] at hcon
      obtain ⟨-, h3⟩ := hcon
      dsimp only at h3
      exact absurd h3 (ne_of_gt hy0)
  · have hfwds : st1.fwdv = some (entryTV a b
        (((tforward_image a b e x).1 + 2) % 4)
        ((tforward_image a b e x).2)) := by
      rw [hfwd_if, if_neg hz]
    have hvnext : validT a b (0, ((tforward_image a b e x).1 + 2) % 4,
        (tforward_image a b e x).2) := validT_next a b ha hb e x hvx hz
    have hstart : (st1.segs.headD SLT.dfltSeg).startv = entryTV a b f y := by
      rw [hth] at hheadS
      rw [hheadS, mkSegFrom_entry a b ha hb f y hvy]
    have hL : SLT.is_closed st1
        = differs_by_scaling
            (entryTV a b (((tforward_image a b e x).1 + 2) % 4)
              ((tforward_image a b e x).2))
            (entryTV a b f y) := by
      simp only [SLT.is_closed, hfwds, hstart]
    rw [hL, SLTT.is_closed, htl, hth, nextT_torus]
    rw [Bool.eq_iff_iff]
    rw [differs_entry a b ha hb _ _ f y hvnext hvy, decide_eq_true_eq]
    constructor
    · rintro ⟨h1, h2⟩
      rw [h1, h2]
    · intro h
      rw [Prod.ext_iff] at h
      obtain ⟨-, h⟩ := h
      rw [Prod.ext_iff] at h
      dsimp only at h
      exact ⟨h.1.symm, h.2.symm⟩

/-- Lockstep simulation: from invariant-related states, equal numbers of
positive flow steps on the two trajectory types yield invariant-related
states. -/
theorem simC1 (a b : ℚ) (ha : 0 < a) (hb : 0 < b) :
    ∀ (n : ℕ) (st1 : SLT.State) (st2 : SLTT.State), InvC1 a b st1 st2 →
      InvC1 a b (SLT.flowPos torusG st1 n)
        (SLTT.flowPos (torusTS a b) st2 n) := by
  intro n
  induction n with
  | zero =>
    intro st1 st2 hI
    exact hI
  | succ n ih =>
    intro st1 st2 hI
    have hcl := closed_corr a b ha hb st1 st2 hI
    obtain ⟨hne, hF, hfwd⟩ := hI
    obtain ⟨hlastV, hlastS⟩ := forall2_getLastD hF hne SLT.dfltSeg SLTT.d0
    obtain ⟨e, x, htl⟩ : ∃ e x, st2.points.getLastD SLTT.d0 = (0, e, x) :=
      ⟨_, _, Prod.ext hlastV.1 rfl⟩
    have hvx : validT a b (0, e, x) := htl ▸ hlastV
    have hfwd_if : st1.fwdv = if (tforward_image a b e x).2 = 0 then none
        else some (entryTV a b (((tforward_image a b e x).1 + 2) % 4)
          ((tforward_image a b e x).2)) := by
      rw [hfwd]
      refine forwardOf_corr a b ha hb _ e x hvx ?_
      rw [htl] at hlastS
      exact hlastS
    by_cases hstop : nextT (torusTS a b) (st2.points.getLastD SLTT.d0)
          = st2.points.headD SLTT.d0
        ∨ (nextT (torusTS a b) (st2.points.getLastD SLTT.d0)).2.2 = 0
    · have h2 : SLTT.flowPos (torusTS a b) st2 (n + 1) = st2 := by
        simp only [SLTT.flowPos]
        rw [if_pos hstop]
      have h1 : SLT.flowPos torusG st1 (n + 1) = st1 := by
        rcases hstop with hclstop | hz
        · have hTcl : SLTT.is_closed (torusTS a b) st2 = true := by
            rw [SLTT.is_closed, decide_eq_true_eq]
            exact hclstop.symm
          have hScl : SLT.is_closed st1 = true := by rw [hcl, hTcl]
          cases hw : st1.fwdv with
          | none => simp only [SLT.flowPos, hw]
          | some w => simp only [SLT.flowPos, hw, hScl, if_true]
        · have hz' : (tforward_image a b e x).2 = 0 := by
            rw [htl, nextT_torus] at hz
            exact hz
          have hfwdn : st1.fwdv = none := by rw [hfwd_if, if_pos hz']
          simp only [SLT.flowPos, hfwdn]
      rw [h1, h2]
      exact ⟨hne, hF, hfwd⟩
    · push_neg at hstop
      obtain ⟨hne_cl, hnz⟩ := hstop
      have hnz' : (tforward_image a b e x).2 ≠ 0 := by
        rw [htl, nextT_torus] at hnz
        exact hnz
      have hfwds : st1.fwdv = some (entryTV a b
          (((tforward_image a b e x).1 + 2) % 4)
          ((tforward_image a b e x).2)) := by
        rw [hfwd_if, if_neg hnz']
      have hTcl : SLTT.is_closed (torusTS a b) st2 = false := by
        rw [SLTT.is_closed, decide_eq_false_iff_not]
        intro h
        exact hne_cl h.symm
      have hScl : SLT.is_closed st1 = false := by rw [hcl, hTcl]
      have hvnext : validT a b (0, ((tforward_image a b e x).1 + 2) % 4,
          (tforward_image a b e x).2) := validT_next a b ha hb e x hvx hnz'
      have hstep2 : SLTT.flowPos (torusTS a b) st2 (n + 1)
          = SLTT.flowPos (torusTS a b)
              ⟨st2.points ++ [nextT (torusTS a b)
                (st2.points.getLastD SLTT.d0)]⟩ n := by
        simp only [SLTT.flowPos]
        rw [if_neg (by push_neg; exact ⟨hne_cl, hnz⟩)]
      have hstep1 : SLT.flowPos torusG st1 (n + 1)
          = SLT.flowPos torusG
              ⟨st1.segs ++ [mkSegFrom torusG (entryTV a b
                  (((tforward_image a b e x).1 + 2) % 4)
                  ((tforward_image a b e x).2))],
                SLT.forwardOf torusG (st1.segs ++ [mkSegFrom torusG
                  (entryTV a b (((tforward_image a b e x).1 + 2) % 4)
                  ((tforward_image a b e x).2))]),
                st1.bwdv⟩ n := by
        simp only [SLT.flowPos, hfwds, hScl]
        rw [if_neg (by simp)]
      rw [hstep1, hstep2]
      apply ih
      refine ⟨by simp, ?_, rfl⟩
      rw [htl, nextT_torus]
      exact List.rel_append hF
        (List.Forall₂.cons ⟨hvnext, rfl⟩ List.Forall₂.nil)

/-- `posOf` of the torus geometry is point classification. -/
theorem posOf_torus (l : ℕ) (p d : ℚ × ℚ) :
    torusG.posOf ⟨l, p, d⟩ = tclassify p := rfl

/-- Segments built from tangent vectors with the same forward projection
coincide. -/
theorem mkSegFrom_congr (G : SegGeom) (v w : TV) (h : G.fwd v = G.fwd w) :
    mkSegFrom G v = mkSegFrom G w := by
  simp only [mkSegFrom, h]

/-- The start of the initial segment: the backward boundary projection of
the base point, pointed forward. -/
theorem init_startv (a b : ℚ) (ha : 0 < a) (hb : 0 < b) (p1 p2 : ℚ) :
    (mkSegFrom torusG ⟨0, (p1, p2), (a, b)⟩).startv
      = ⟨0, tfwd (p1, p2) (-a, -b), (a, b)⟩ := by
  show torusFwd (torusFwd ⟨0, (p1, p2), (a, b)⟩) = _
  rw [torusFwd_mk]
  try dsimp only
  rw [torusFwd_mk]
  try dsimp only
  rw [neg_neg, neg_neg, tfwd_fwd_then_back a b ha hb]

/-- The two `__init__`s produce invariant-related initial states, for any
base point of the fundamental square `[0,1) × [0,1)` and direction
`(a, b)` with `a, b > 0`. -/
theorem initC1 (a b : ℚ) (ha : 0 < a) (hb : 0 < b) (p1 p2 : ℚ)
    (h1 : 0 ≤ p1) (h2 : p1 < 1) (h3 : 0 ≤ p2) (h4 : p2 < 1) :
    InvC1 a b (SLT.init torusG ⟨0, (p1, p2), (a, b)⟩)
      (SLTT.init torusG (torusTS a b) ⟨0, (p1, p2), (a, b)⟩) := by
  have ha0 : a ≠ 0 := ne_of_gt ha
  have hb0 : b ≠ 0 := ne_of_gt hb
  have hsv := init_startv a b ha hb p1 p2
  -- the three possible entry positions of the backward projection
  rcases le_or_lt (p1 / a) (p2 / b) with hAB | hBA
  · have hr : tfwd (p1, p2) (-a, -b) = (0, p2 - p1 / a * b) := by
      rw [tfwd_neg a b ha hb]
      dsimp only
      rw [min_eq_left hAB]
      refine Prod.ext ?_ ?_ <;> (try dsimp only)
      · field_simp
      · ring
    have hy_ge : 0 ≤ p2 - p1 / a * b := by
      have hmul := mul_le_mul_of_nonneg_right hAB (le_of_lt hb)
      rw [div_mul_cancel₀ p2 hb0] at hmul
      linarith
    have hy_lt : p2 - p1 / a * b < 1 := by
      have : 0 ≤ p1 / a * b :=
        mul_nonneg (div_nonneg h1 (le_of_lt ha)) (le_of_lt hb)
      linarith
    by_cases hy : p2 - p1 / a * b = 0
    · -- backward projection is the corner (0, 0): entry (0, 0)
      have hr0 : tfwd (p1, p2) (-a, -b) = (0, 0) := by rw [hr, hy]
      have ht0 : SLTT.init torusG (torusTS a b) ⟨0, (p1, p2), (a, b)⟩
          = ⟨[(0, 0, 0)]⟩ := by
        simp only [SLTT.init]
        rw [hsv, hr0, posOf_torus, tclassify_corner0]
        norm_num [torusTS, get_linearity_coeff]
      have hvalid : validT a b (0, 0, 0) := by
        rw [validT_def]
        exact ⟨rfl, Or.inl ⟨rfl, le_refl 0, hb⟩⟩
      have hpt : pointOfBot a b 0 0 = (0, 0) := by
        rw [pointOfBot_e0, zero_div]
      refine ⟨by rw [ht0]; simp, ?_, rfl⟩
      rw [ht0]
      refine List.Forall₂.cons ⟨hvalid, ?_⟩ List.Forall₂.nil
      refine mkSegFrom_congr torusG _ _ ?_
      show torusFwd _ = torusFwd _
      rw [show entryTV a b 0 0 = ⟨0, pointOfBot a b 0 0, (a, b)⟩ from rfl]
      rw [torusFwd_mk, torusFwd_mk]
      dsimp only
      rw [hpt, ← hr0, tfwd_back_then_fwd a b ha hb]
    · -- backward projection is interior to the left edge: entry edge 3
      have hy0' : 0 < p2 - p1 / a * b := lt_of_le_of_ne hy_ge (Ne.symm hy)
      have ht0 : SLTT.init torusG (torusTS a b) ⟨0, (p1, p2), (a, b)⟩
          = ⟨[(0, 3, (1 - (p2 - p1 / a * b)) * a)]⟩ := by
        simp only [SLTT.init]
        rw [hsv, hr, posOf_torus, tclassify_edge3 _ hy0' hy_lt]
        norm_num [torusTS, get_linearity_coeff]
        exact Or.inl (by first | trivial | ring)
      have hvalid : validT a b (0, 3, (1 - (p2 - p1 / a * b)) * a) := by
        rw [validT_def]
        refine ⟨rfl, Or.inr ⟨rfl, ?_, ?_⟩⟩
        · nlinarith
        · nlinarith
      have hpt : pointOfBot a b 3 ((1 - (p2 - p1 / a * b)) * a)
          = (0, p2 - p1 / a * b) := by
        rw [pointOfBot_e3]
        refine Prod.ext rfl ?_
        dsimp only
        field_simp
      refine ⟨by rw [ht0]; simp, ?_, rfl⟩
      rw [ht0]
      refine List.Forall₂.cons ⟨hvalid, ?_⟩ List.Forall₂.nil
      refine mkSegFrom_congr torusG _ _ ?_
      show torusFwd _ = torusFwd _
      rw [show entryTV a b 3 ((1 - (p2 - p1 / a * b)) * a)
          = ⟨0, pointOfBot a b 3 ((1 - (p2 - p1 / a * b)) * a), (a, b)⟩
          from rfl]
      rw [torusFwd_mk, torusFwd_mk]
      dsimp only
      rw [hpt, ← hr, tfwd_back_then_fwd a b ha hb]
  · -- backward projection is on the bottom edge, positive offset
    have hr : tfwd (p1, p2) (-a, -b) = (p1 - p2 / b * a, 0) := by
      rw [tfwd_neg a b ha hb]
      dsimp only
      rw [min_eq_right (le_of_lt hBA)]
      refine Prod.ext ?_ ?_ <;> (try dsimp only)
      · ring
      · field_simp
    have hx_pos : 0 < p1 - p2 / b * a := by
      have hmul := mul_lt_mul_of_pos_right hBA ha
      rw [div_mul_cancel₀ p1 ha0] at hmul
      linarith
    have hx_lt : p1 - p2 / b * a < 1 := by
      have : 0 ≤ p2 / b * a :=
        mul_nonneg (div_nonneg h3 (le_of_lt hb)) (le_of_lt ha)
      linarith
    have ht0 : SLTT.init torusG (torusTS a b) ⟨0, (p1, p2), (a, b)⟩
        = ⟨[(0, 0, (p1 - p2 / b * a) * b)]⟩ := by
      simp only [SLTT.init]
      rw [hsv, hr, posOf_torus, tclassify_edge0 _ hx_pos hx_lt]
      norm_num [torusTS, get_linearity_coeff]
    have hvalid : validT a b (0, 0, (p1 - p2 / b * a) * b) := by
      rw [validT_def]
      refine ⟨rfl, Or.inl ⟨rfl, ?_, ?_⟩⟩
      · nlinarith
      · nlinarith
    have hpt : pointOfBot a b 0 ((p1 - p2 / b * a) * b)
        = (p1 - p2 / b * a, 0) := by
      rw [pointOfBot_e0]
      refine Prod.ext ?_ rfl
      dsimp only
      field_simp
    refine ⟨by rw [ht0]; simp, ?_, rfl⟩
    rw [ht0]
    refine List.Forall₂.cons ⟨hvalid, ?_⟩ List.Forall₂.nil
    refine mkSegFrom_congr torusG _ _ ?_
    show torusFwd _ = torusFwd _
    rw [show entryTV a b 0 ((p1 - p2 / b * a) * b)
        = ⟨0, pointOfBot a b 0 ((p1 - p2 / b * a) * b), (a, b)⟩ from rfl]
    rw [torusFwd_mk, torusFwd_mk]
    dsimp only
    rw [hpt, ← hr, tfwd_back_then_fwd a b ha hb]

/-- Under the simulation relation, a triple's `(label, edge)` projection is
the polygon label and entry-edge index of its segment's start position. -/
theorem corr_proj (a b : ℚ) (ha : 0 < a) (hb : 0 < b)
    (s : SegmentInPolygon) (t : Triple) (hc : corr a b s t) :
    (t.1, t.2.1) = (s.startv.label, entryIdxOf (torusG.posOf s.startv)) := by
  obtain ⟨hv, hs⟩ := hc
  obtain ⟨p, e, x⟩ := t
  have hp : p = 0 := hv.1
  subst hp
  rw [hs, mkSegFrom_entry a b ha hb e x hv]
  dsimp only
  by_cases hx : x = 0
  · subst hx
    obtain ⟨hpt, hcl, he0⟩ := tclassify_entry_zero a b ha hb e hv
    subst he0
    rw [show entryTV a b 0 0 = ⟨0, pointOfBot a b 0 0, (a, b)⟩ from rfl,
      posOf_torus, hcl]
    rfl
  · rw [show entryTV a b e x = ⟨0, pointOfBot a b e x, (a, b)⟩ from rfl,
      posOf_torus, tclassify_entry_pos a b ha hb e x hv hx]
    rfl

/-- C1 (amended): on the square torus, for every initial tangent vector
based in the fundamental square `[0,1) × [0,1)` with direction `(a, b)`,
`a, b > 0`, and every number `steps ≥ 0` of forward flow steps applied to
both trajectory types, the two trajectories report the same
`combinatorial_length()` and the same `is_closed()`, and the triples of
the translation trajectory are the entry crossings of the segment-based
trajectory: the i-th triple's `(polygon_label, edge)` is the label and
entry-edge index of the i-th segment's start position.  (`coding()`, by
contrast, lists the edges through which segments *exit*, preceded and
followed by boundary crossings of the endpoints, so the claimed equality
of `coding()` with the triples' projection fails; this is the nearby
correspondence that holds.) -/
theorem c1_amended_cross_agreement (a b : ℚ) (ha : 0 < a) (hb : 0 < b)
    (p1 p2 : ℚ) (h1 : 0 ≤ p1) (h2 : p1 < 1) (h3 : 0 ≤ p2) (h4 : p2 < 1)
    (steps : ℤ) (hs : 0 ≤ steps) :
    SLT.combinatorial_length
        (SLT.flow torusG (SLT.init torusG ⟨0, (p1, p2), (a, b)⟩) steps)
      = SLTT.combinatorial_length
          (SLTT.flow (torusTS a b)
            (SLTT.init torusG (torusTS a b) ⟨0, (p1, p2), (a, b)⟩) steps) ∧
    SLT.is_closed
        (SLT.flow torusG (SLT.init torusG ⟨0, (p1, p2), (a, b)⟩) steps)
      = SLTT.is_closed (torusTS a b)
          (SLTT.flow (torusTS a b)
            (SLTT.init torusG (torusTS a b) ⟨0, (p1, p2), (a, b)⟩) steps) ∧
    List.Forall₂ (fun (s : SegmentInPolygon) (t : Triple) =>
        (t.1, t.2.1) = (s.startv.label, entryIdxOf (torusG.posOf s.startv)))
      (SLT.flow torusG (SLT.init torusG ⟨0, (p1, p2), (a, b)⟩) steps).segs
      (SLTT.flow (torusTS a b)
        (SLTT.init torusG (torusTS a b) ⟨0, (p1, p2), (a, b)⟩) steps).points
    := by
  have hInv : InvC1 a b
      (SLT.flow torusG (SLT.init torusG ⟨0, (p1, p2), (a, b)⟩) steps)
      (SLTT.flow (torusTS a b)
        (SLTT.init torusG (torusTS a b) ⟨0, (p1, p2), (a, b)⟩) steps) := by
    by_cases h0 : 0 < steps
    · have hf1 : SLT.flow torusG (SLT.init torusG ⟨0, (p1, p2), (a, b)⟩)
          steps = SLT.flowPos torusG
            (SLT.init torusG ⟨0, (p1, p2), (a, b)⟩) steps.toNat := by
        simp only [SLT.flow]
        rw [if_pos h0]
      have hf2 : SLTT.flow (torusTS a b)
          (SLTT.init torusG (torusTS a b) ⟨0, (p1, p2), (a, b)⟩) steps
          = SLTT.flowPos (torusTS a b)
            (SLTT.init torusG (torusTS a b) ⟨0, (p1, p2), (a, b)⟩)
            steps.toNat := by
        simp only [SLTT.flow]
        rw [if_pos h0]
      rw [hf1, hf2]
      exact simC1 a b ha hb steps.toNat _ _
        (initC1 a b ha hb p1 p2 h1 h2 h3 h4)
    · have hz : steps = 0 := le_antisymm (not_lt.mp h0) hs
      subst hz
      have hf1 : SLT.flow torusG (SLT.init torusG ⟨0, (p1, p2), (a, b)⟩) 0
          = SLT.init torusG ⟨0, (p1, p2), (a, b)⟩ := by
        simp [SLT.flow]
      have hf2 : SLTT.flow (torusTS a b)
          (SLTT.init torusG (torusTS a b) ⟨0, (p1, p2), (a, b)⟩) 0
          = SLTT.init torusG (torusTS a b) ⟨0, (p1, p2), (a, b)⟩ := by
        simp [SLTT.flow]
      rw [hf1, hf2]
      exact initC1 a b ha hb p1 p2 h1 h2 h3 h4
  obtain ⟨hne, hF, hfwd⟩ := hInv
  refine ⟨List.Forall₂.length_eq hF, ?_, ?_⟩
  · exact closed_corr a b ha hb _ _ ⟨hne, hF, hfwd⟩
  · exact List.Forall₂.imp (fun s t hc => corr_proj a b ha hb s t hc) hF

/-- C1 witness: the amended cross-implementation agreement applied on the
square torus to the tangent vector at `(1/2, 0)` with direction `(5, 6)`,
after 2 flow steps on each trajectory type. -/
theorem c1_amended_witness :
    SLT.combinatorial_length
        (SLT.flow torusG (SLT.init torusG ⟨0, (1/2, 0), (5, 6)⟩) 2)
      = SLTT.combinatorial_length
          (SLTT.flow (torusTS 5 6)
            (SLTT.init torusG (torusTS 5 6) ⟨0, (1/2, 0), (5, 6)⟩) 2) ∧
    SLT.is_closed
        (SLT.flow torusG (SLT.init torusG ⟨0, (1/2, 0), (5, 6)⟩) 2)
      = SLTT.is_closed (torusTS 5 6)
          (SLTT.flow (torusTS 5 6)
            (SLTT.init torusG (torusTS 5 6) ⟨0, (1/2, 0), (5, 6)⟩) 2) ∧
    List.Forall₂ (fun (s : SegmentInPolygon) (t : Triple) =>
        (t.1, t.2.1) = (s.startv.label, entryIdxOf (torusG.posOf s.startv)))
      (SLT.flow torusG (SLT.init torusG ⟨0, (1/2, 0), (5, 6)⟩) 2).segs
      (SLTT.flow (torusTS 5 6)
        (SLTT.init torusG (torusTS 5 6) ⟨0, (1/2, 0), (5, 6)⟩) 2).points :=
  c1_amended_cross_agreement 5 6 (by norm_num) (by norm_num) (1/2) 0
    (by norm_num) (by norm_num) (by norm_num) (by norm_num) 2 (by norm_num)
